import Mathlib

/-!
Verification of the sequoia/remanso publishing core against its specification.

The definitions below are a shallow embedding of the TypeScript sources:
  * packages/remanso/src (extensions/remanso module, config module) — link
    resolver, stale-link detection, state store, note records;
  * packages/cli/src/commands/publish-lite.ts and
    packages/remanso/src/commands/publish.ts — the publish command's
    local diff and reconciliation pipeline.

Strings are manipulated through their character lists; regular-expression
driven scans from the source are embedded as explicit fuel-indexed scanners
over character lists that reproduce the deterministic behavior of the
concrete patterns used by the code.
-/

namespace Sequoia

/-! ## Generic list machinery -/

/-- Split a list at the first element satisfying p.
Returns the elements strictly before it and the elements strictly
after it (the splitting element itself is dropped), or none when no
element satisfies p.  Mirrors how a regex character class such as
a run of non-bracket characters followed by the literal bracket
deterministically consumes input up to the first occurrence. -/
def splitAtFirstP (p : Char → Bool) : List Char → Option (List Char × List Char)
  | [] => none
  | x :: xs =>
    if p x then some ([], xs)
    else (splitAtFirstP p xs).map (fun r => (x :: r.1, r.2))

theorem splitAtFirstP_append (p : Char → Bool) (a : List Char) (x : Char) (b : List Char)
    (ha : ∀ y ∈ a, p y = false) (hx : p x = true) :
    splitAtFirstP p (a ++ x :: b) = some (a, b) := by
  induction a with
  | nil => simp [splitAtFirstP, hx]
  | cons y ys ih =>
    have hy : p y = false := ha y (by simp)
    have ihh := ih (fun z hz => ha z (by simp [hz]))
    simp [splitAtFirstP, hy, ihh]

theorem splitAtFirstP_eq_some (p : Char → Bool) :
    ∀ (l a b : List Char), splitAtFirstP p l = some (a, b) →
      (∃ x, p x = true ∧ l = a ++ x :: b) ∧ ∀ y ∈ a, p y = false := by
  intro l
  induction l with
  | nil => intro a b h; simp [splitAtFirstP] at h
  | cons x xs ih =>
    intro a b h
    by_cases hx : p x = true
    · simp only [splitAtFirstP, hx, if_true] at h
      injection h with h1
      rw [Prod.mk.injEq] at h1
      obtain ⟨ha, hb⟩ := h1
      subst ha; subst hb
      exact ⟨⟨x, hx, rfl⟩, by intro y hy; simp at hy⟩
    · have hx' : p x = false := by simpa using hx
      simp only [splitAtFirstP, hx', Bool.false_eq_true, if_false,
        Option.map_eq_some'] at h
      obtain ⟨⟨a0, b0⟩, hsplit, hpair⟩ := h
      rw [Prod.mk.injEq] at hpair
      obtain ⟨ha, hb⟩ := hpair
      subst ha; subst hb
      obtain ⟨⟨z, hz, hl⟩, hall⟩ := ih a0 b0 hsplit
      refine ⟨⟨z, hz, by simp [hl]⟩, ?_⟩
      intro y hy
      rcases List.mem_cons.mp hy with h1 | h2
      · simpa [h1] using hx'
      · exact hall y h2

theorem splitAtFirstP_length (p : Char → Bool) (l a b : List Char)
    (h : splitAtFirstP p l = some (a, b)) : b.length < l.length := by
  obtain ⟨⟨x, _, hl⟩, _⟩ := splitAtFirstP_eq_some p l a b h
  subst hl; simp; omega

theorem find?_cons_pos {α : Type} (p : α → Bool) (a : α) (l : List α)
    (h : p a = true) : (a :: l).find? p = some a := by
  simp [List.find?, h]

theorem find?_cons_neg {α : Type} (p : α → Bool) (a : α) (l : List α)
    (h : p a = false) : (a :: l).find? p = l.find? p := by
  simp [List.find?, h]

/-! ## Data model

From packages/cli/src/lib/types (as consumed by the sources in scope):
a scanned document and a persisted state entry. -/

structure Frontmatter where
  title : String
  publishDate : String
  description : Option String := none
  atUri : Option String := none
  draft : Bool := false
  ogImage : Option String := none
  theme : Option String := none
  fontSize : Option String := none
  fontFamily : Option String := none
  deriving Repr, DecidableEq

structure BlogPost where
  filePath : String
  slug : String
  frontmatter : Frontmatter
  content : String
  rawContent : String
  deriving Repr, DecidableEq

structure PostState where
  contentHash : String
  atUri : Option String
  lastPublished : String
  slug : String
  deriving Repr, DecidableEq

/-- String prefix test (url.startsWith of the source), carried out on the
character lists so that it evaluates by kernel reduction. -/
def strStarts (s pre : String) : Bool :=
  pre.toList.isPrefixOf s.toList

/-- String suffix test (slug.endsWith of the source), carried out on the
character lists so that it evaluates by kernel reduction. -/
def strEnds (s suf : String) : Bool :=
  suf.toList.isSuffixOf s.toList

/-- TypeScript truthiness of an optional string field: undefined and the
empty string are both falsy, which is how the sources test
post.frontmatter.atUri and postState.atUri. -/
def strSet (o : Option String) : Bool :=
  match o with
  | none => false
  | some s => !s.toList.isEmpty

/-! ## Link resolver (packages/cli/src/extensions/remanso, index.ts 123-430) -/

/-- isLocalPath from the remanso extension module. -/
def isLocalPath (url : String) : Bool :=
  !strStarts url "http://" && !strStarts url "https://" &&
    !strStarts url "#" && !strStarts url "mailto:"

/-- Strip the leading repetitions of "../" and "./":
the first normalization replace in resolveInternalLinks. -/
def stripDotSegs : List Char → List Char
  | '.' :: '.' :: '/' :: rest => stripDotSegs rest
  | '.' :: '/' :: rest => stripDotSegs rest
  | l => l

/-- Strip one trailing slash: the second normalization replace. -/
def stripTrailSlash (l : List Char) : List Char :=
  if l.getLast? = some '/' then l.dropLast else l

/-- Strip a trailing ".md" or ".mdx": the third normalization replace. -/
def stripMdExt (l : List Char) : List Char :=
  match l.reverse with
  | 'x' :: 'd' :: 'm' :: '.' :: r => r.reverse
  | 'd' :: 'm' :: '.' :: r => r.reverse
  | _ => l

/-- Strip a trailing "/index": the fourth normalization replace. -/
def stripIndexSeg (l : List Char) : List Char :=
  match l.reverse with
  | 'x' :: 'e' :: 'd' :: 'n' :: 'i' :: '/' :: r => r.reverse
  | _ => l

/-- Normalize a link target to a slug-like string for comparison
(resolveInternalLinks and findPostsWithStaleLinks both use this chain
of four replaces). -/
def normalizeUrl (url : String) : String :=
  String.mk (stripIndexSeg (stripMdExt (stripTrailSlash (stripDotSegs url.toList))))

/-- The slug-matching rule shared by the resolver and the stale-link scan:
equality, or one side being a path suffix of the other. -/
def slugMatches (slug normalized : String) : Bool :=
  slug == normalized || strEnds slug ("/" ++ normalized) ||
    strEnds normalized ("/" ++ slug)

/-- allPosts.find of resolveInternalLinks: the first candidate with a
truthy atUri whose slug matches the normalized target. -/
def findLinkTarget (allPosts : List BlogPost) (normalized : String) : Option BlogPost :=
  allPosts.find? (fun p =>
    strSet p.frontmatter.atUri && slugMatches p.slug normalized)

/-- The atUri.replace of resolveInternalLinks: rewrite the last two
slash-separated components "/collection/rkey" (both nonempty and
slash-free, anchored at the end) into "/space.remanso.note/rkey";
when the pattern does not occur the string is returned unchanged. -/
def noteUriOf (atUri : String) : String :=
  let rev := atUri.toList.reverse
  let keyRev := rev.takeWhile (fun c => c != '/')
  let rest1 := rev.dropWhile (fun c => c != '/')
  match rest1 with
  | '/' :: rest2 =>
    if keyRev.isEmpty then atUri
    else
      let collRev := rest2.takeWhile (fun c => c != '/')
      let rest3 := rest2.dropWhile (fun c => c != '/')
      match rest3 with
      | '/' :: _ =>
        if collRev.isEmpty then atUri
        else String.mk (rest3.reverse ++ ("space.remanso.note/").toList ++ keyRev.reverse)
      | _ => atUri
  | _ => atUri

/-- The replacement callback of resolveInternalLinks, applied to the two
capture groups (display text and target) of each plain reference link. -/
def resolveCallback (allPosts : List BlogPost) (text url : String) : String :=
  if !isLocalPath url then "[" ++ text ++ "](" ++ url ++ ")"
  else
    match findLinkTarget allPosts (normalizeUrl url) with
    | none => text
    | some p =>
      "[" ++ text ++ "](" ++ noteUriOf (p.frontmatter.atUri.getD "") ++ ")"

/-- Second half of the link pattern starting right after the closing
bracket: the opening parenthesis, one or more non-parenthesis
characters (target), the closing parenthesis. -/
def matchLinkTail (text rest2 : List Char) : Option (List Char × List Char × List Char) :=
  match rest2 with
  | [] => none
  | c1 :: rest3 =>
    if c1 = '(' then
      match splitAtFirstP (fun c => c == ')') rest3 with
      | some (url, rest4) =>
        if url.isEmpty then none else some (text, url, rest4)
      | none => none
    else none

/-- Try to match the link pattern at the current position: an opening
bracket, one or more non-bracket characters (display text), the closing
bracket, then the parenthesized target.  Returns (text, url, rest). -/
def tryMatchLink (cs : List Char) : Option (List Char × List Char × List Char) :=
  match cs with
  | [] => none
  | c0 :: rest =>
    if c0 = '[' then
      match splitAtFirstP (fun c => c == ']') rest with
      | some (text, rest2) =>
        if text.isEmpty then none else matchLinkTail text rest2
      | none => none
    else none

theorem matchLinkTail_spec (text rest2 t u r : List Char)
    (h : matchLinkTail text rest2 = some (t, u, r)) :
    t = text ∧ u.isEmpty = false ∧ (∀ y ∈ u, (y == ')') = false) ∧
      rest2 = '(' :: (u ++ ')' :: r) := by
  cases rest2 with
  | nil => exact Option.noConfusion h
  | cons c1 rest3 =>
    simp only [matchLinkTail] at h
    split at h
    · rename_i hc1
      cases h2 : splitAtFirstP (fun c => c == ')') rest3 with
      | none => simp only [h2] at h; exact Option.noConfusion h
      | some w =>
        obtain ⟨url, rest4⟩ := w
        simp only [h2] at h
        obtain ⟨⟨x, hx, hshape⟩, hnon⟩ := splitAtFirstP_eq_some _ rest3 url rest4 h2
        have hx' : x = ')' := by simpa using hx
        subst hx'
        split at h
        · exact Option.noConfusion h
        · rename_i hne
          injection h with h3
          simp only [Prod.mk.injEq] at h3
          obtain ⟨ht, hu, hr⟩ := h3
          subst ht; subst hu; subst hr
          refine ⟨rfl, by simpa using hne, hnon, ?_⟩
          rw [hc1, hshape]
    · exact Option.noConfusion h

theorem tryMatchLink_spec (cs t u r : List Char)
    (h : tryMatchLink cs = some (t, u, r)) :
    t.isEmpty = false ∧ u.isEmpty = false ∧
      (∀ y ∈ t, (y == ']') = false) ∧ (∀ y ∈ u, (y == ')') = false) ∧
      cs = '[' :: (t ++ ']' :: ('(' :: (u ++ ')' :: r))) := by
  cases cs with
  | nil => exact Option.noConfusion h
  | cons c0 rest =>
    simp only [tryMatchLink] at h
    split at h
    · rename_i hc0
      cases h1 : splitAtFirstP (fun c => c == ']') rest with
      | none => simp only [h1] at h; exact Option.noConfusion h
      | some v =>
        obtain ⟨text, rest2⟩ := v
        simp only [h1] at h
        obtain ⟨⟨x, hx, hshape⟩, hnon⟩ := splitAtFirstP_eq_some _ rest text rest2 h1
        have hx' : x = ']' := by simpa using hx
        subst hx'
        split at h
        · exact Option.noConfusion h
        · rename_i hne
          obtain ⟨ht, hune, hnon2, hr2⟩ := matchLinkTail_spec text rest2 t u r h
          subst ht
          refine ⟨by simpa using hne, hune, hnon, hnon2, ?_⟩
          rw [hc0, hshape, hr2]
    · exact Option.noConfusion h

theorem tryMatchLink_length (cs t u r : List Char)
    (h : tryMatchLink cs = some (t, u, r)) : r.length < cs.length := by
  obtain ⟨_, _, _, _, hshape⟩ := tryMatchLink_spec cs t u r h
  subst hshape
  simp
  omega

/-- Whether the negative lookbehind of the link regex allows a match
starting here: the preceding character (if any) is neither an
exclamation mark (image embed) nor an at sign (mention embed). -/
def lbAllow (prev : Option Char) : Bool :=
  prev != some '!' && prev != some '@'

/-- Fuel-indexed embedding of content.replace(linkRegex, callback):
scan the character list left to right; at each position where the
lookbehind allows it and the link pattern matches, emit the callback
result and resume after the match; otherwise emit the character.
The fuel argument makes the recursion structural; it is instantiated
with the length of the scanned list, which is always sufficient. -/
def replaceLinksFuel (f : String → String → String) :
    Nat → Option Char → List Char → List Char
  | 0, _, cs => cs
  | _ + 1, _, [] => []
  | fuel + 1, prev, c :: rest =>
    if lbAllow prev then
      match tryMatchLink (c :: rest) with
      | some (t, u, r) =>
        (f (String.mk t) (String.mk u)).toList ++ replaceLinksFuel f fuel (some ')') r
      | none => c :: replaceLinksFuel f fuel (some c) rest
    else c :: replaceLinksFuel f fuel (some c) rest

/-- resolveInternalLinks from the remanso extension module. -/
def resolveInternalLinks (content : String) (allPosts : List BlogPost) : String :=
  String.mk
    (replaceLinksFuel (resolveCallback allPosts) content.toList.length none content.toList)

/-- Fuel-indexed embedding of content.matchAll(linkRegex): collect the
capture groups (text, url) of every match, scanning with the same
lookbehind discipline as the replace. -/
def collectLinksFuel : Nat → Option Char → List Char → List (String × String)
  | 0, _, _ => []
  | _ + 1, _, [] => []
  | fuel + 1, prev, c :: rest =>
    if lbAllow prev then
      match tryMatchLink (c :: rest) with
      | some (t, u, r) =>
        (String.mk t, String.mk u) :: collectLinksFuel fuel (some ')') r
      | none => collectLinksFuel fuel (some c) rest
    else collectLinksFuel fuel (some c) rest

/-- All plain reference links (text, target) occurring in a content string. -/
def extractLinks (content : String) : List (String × String) :=
  collectLinksFuel content.toList.length none content.toList

/-- findPostsWithStaleLinks from the remanso extension module: keep the
posts outside the exclude set, with a truthy atUri, not drafts, whose
content has some plain local reference whose normalized target matches
one of the newly published slugs. -/
def findPostsWithStaleLinks (allPosts : List BlogPost) (newSlugs : List String)
    (excludeFilePaths : List String) : List BlogPost :=
  allPosts.filter (fun post =>
    if excludeFilePaths.contains post.filePath then false
    else if !strSet post.frontmatter.atUri then false
    else if post.frontmatter.draft then false
    else
      (extractLinks post.content).any (fun m =>
        isLocalPath m.2 &&
          newSlugs.any (fun slug => slugMatches slug (normalizeUrl m.2))))

/-! ## Remote identity parsing (index.ts parseRkey and the identical
inline parse of publish-lite.ts createNote/updateNote) -/

/-- JavaScript line terminators, which the dot of the anchored pattern
at-scheme, authority, collection, record-key does not match. -/
def isLineTerm (c : Char) : Bool :=
  c == Char.ofNat 10 || c == Char.ofNat 13 ||
    c == Char.ofNat 0x2028 || c == Char.ofNat 0x2029

/-- The anchored match of parseRkey: the literal at-scheme, a nonempty
slash-free authority, a slash, a nonempty slash-free collection, a slash,
then one or more non-line-terminator characters taken as the record key. -/
def parseAtUriParts (s : String) : Option (String × String × String) :=
  if ("at://" : String).toList.isPrefixOf s.toList then
    match splitAtFirstP (fun c => c == '/') (s.toList.drop 5) with
    | some (seg1, rest2) =>
      if seg1.isEmpty then none
      else
        match splitAtFirstP (fun c => c == '/') rest2 with
        | some (seg2, rest3) =>
          if seg2.isEmpty then none
          else if rest3.isEmpty || rest3.any isLineTerm then none
          else some (String.mk seg1, String.mk seg2, String.mk rest3)
        | none => none
    | none => none
  else none

/-- parseRkey from index.ts: extract the record key of an atUri, throwing
an Invalid-atUri error when the pattern does not match (embedded as
Except.error). -/
def parseRkey (atUri : String) : Except String String :=
  match parseAtUriParts atUri with
  | some parts => Except.ok parts.2.2
  | none => Except.error ("Invalid atUri format: " ++ atUri)

/-! ## Persisted state store (index.ts loadState, 99-112) -/

structure PublisherState where
  posts : List (String × PostState)
  deriving Repr, DecidableEq

/-- loadState from the remanso config module.  File system reads and JSON
parsing are external effects; they are passed in as functions, where
none models a missing file (failed access) respectively unparseable
contents (JSON.parse throwing).  The catch-all around readFile and
JSON.parse maps every failure to the empty mapping. -/
def loadState (readFile : String → Option String)
    (parseState : String → Option PublisherState) (configDir : String) :
    PublisherState :=
  let statePath := configDir ++ "/" ++ ".remanso-state.json"
  match readFile statePath with
  | none => { posts := [] }
  | some content =>
    match parseState content with
    | none => { posts := [] }
    | some st => st

/-! ## Secondary note records (index.ts 123-430, publish-lite.ts 1-75) -/

def MAX_CONTENT : Nat := 10000

/-- content.slice(0, MAX_CONTENT) of the source, on character lists. -/
def sliceContent (s : String) : String :=
  String.mk (s.toList.take MAX_CONTENT)

structure BlobObject where
  refLink : String
  mimeType : String
  size : Nat
  deriving Repr, DecidableEq

/-- The image-embed pattern of processImages: a bang, an opening bracket,
zero or more non-bracket characters (alt text), the closing bracket,
then the parenthesized source.  Unlike the link pattern the alt text
may be empty and there is no lookbehind. -/
def tryMatchImage (cs : List Char) : Option (List Char × List Char × List Char) :=
  match cs with
  | [] => none
  | c0 :: rest =>
    if c0 = '!' then
      match rest with
      | [] => none
      | c1 :: rest1 =>
        if c1 = '[' then
          match splitAtFirstP (fun c => c == ']') rest1 with
          | some (alt, rest2) => matchLinkTail alt rest2
          | none => none
        else none
    else none

theorem tryMatchImage_length (cs t u r : List Char)
    (h : tryMatchImage cs = some (t, u, r)) : r.length < cs.length := by
  cases cs with
  | nil => exact Option.noConfusion h
  | cons c0 rest =>
    simp only [tryMatchImage] at h
    split at h
    · cases rest with
      | nil => exact Option.noConfusion h
      | cons c1 rest1 =>
        simp only at h
        split at h
        · cases h1 : splitAtFirstP (fun c => c == ']') rest1 with
          | none => simp only [h1] at h; exact Option.noConfusion h
          | some v =>
            obtain ⟨alt, rest2⟩ := v
            simp only [h1] at h
            have hlen1 := splitAtFirstP_length _ rest1 alt rest2 h1
            obtain ⟨_, _, _, hshape⟩ := matchLinkTail_spec alt rest2 t u r h
            subst hshape
            simp at hlen1 ⊢
            omega
        · exact Option.noConfusion h
    · exact Option.noConfusion h

/-- Collect the image embeds (alt, src) of a content string:
content.matchAll of the image pattern in processImages. -/
def collectImagesFuel : Nat → List Char → List (String × String)
  | 0, _ => []
  | _ + 1, [] => []
  | fuel + 1, c :: rest =>
    match tryMatchImage (c :: rest) with
    | some (alt, src, r) => (String.mk alt, String.mk src) :: collectImagesFuel fuel r
    | none => collectImagesFuel fuel rest

def extractImages (content : String) : List (String × String) :=
  collectImagesFuel content.toList.length content.toList

/-- Replace the first occurrence of a pattern in a list
(processedContent.replace with a plain string argument). -/
def replaceFirstL (pat repl l : List Char) : List Char :=
  match l with
  | [] => []
  | c :: rest =>
    if pat.isPrefixOf l then repl ++ l.drop pat.length
    else c :: replaceFirstL pat repl rest

structure ImageRecord where
  image : BlobObject
  alt : Option String
  deriving Repr, DecidableEq

/-- processImages from index.ts, with blob upload abstracted: upload src
returns the blob object obtained for an image source, or none when no
candidate file uploads successfully.  The upload cache maps each source
to a single blob; non-local sources and failed uploads are skipped, and
each processed embed is rewritten in place to point at the blob link. -/
def processImagesStep (upload : String → Option BlobObject)
    (st : List Char × List ImageRecord × List (String × BlobObject))
    (m : String × String) :
    List Char × List ImageRecord × List (String × BlobObject) :=
  let (processed, images, cache) := st
  let (alt, src) := m
  if !isLocalPath src then st
  else
    match (cache.find? (fun e => e.1 == src)).map Prod.snd with
    | some blob =>
      let fullMatch := ("![" ++ alt ++ "](" ++ src ++ ")").toList
      let repl := ("![" ++ alt ++ "](" ++ blob.refLink ++ ")").toList
      (replaceFirstL fullMatch repl processed,
        images ++ [{ image := blob, alt := if alt.toList.isEmpty then none else some alt }],
        cache)
    | none =>
      match upload src with
      | none => st
      | some blob =>
        let fullMatch := ("![" ++ alt ++ "](" ++ src ++ ")").toList
        let repl := ("![" ++ alt ++ "](" ++ blob.refLink ++ ")").toList
        (replaceFirstL fullMatch repl processed,
          images ++ [{ image := blob, alt := if alt.toList.isEmpty then none else some alt }],
          cache ++ [(src, blob)])

def processImages (upload : String → Option BlobObject) (content : String) :
    String × List ImageRecord :=
  let r := (extractImages content).foldl (processImagesStep upload) (content.toList, [], [])
  (String.mk r.1, r.2.1)

/-- JavaScript String.prototype.trim on character lists. -/
def trimStr (s : String) : String :=
  String.mk ((s.toList.dropWhile Char.isWhitespace).reverse.dropWhile
    Char.isWhitespace |>.reverse)

/-- processNoteContent from index.ts: trim the body, resolve internal
links against all posts, then process image embeds. -/
def processNoteContent (upload : String → Option BlobObject) (post : BlogPost)
    (allPosts : List BlogPost) : String × List ImageRecord :=
  processImages upload (resolveInternalLinks (trimStr post.content) allPosts)

/-- The first level-1 heading of the trimmed content, used by
buildNoteRecord for the note title (the anchored multiline heading
match): the first line starting with a hash and a space, with at least
one following character on the line. -/
def splitLinesC : List Char → List (List Char)
  | [] => [[]]
  | c :: rest =>
    match splitLinesC rest with
    | [] => [[c]]
    | l :: ls => if c = '\n' then [] :: l :: ls else (c :: l) :: ls

def firstHeading (cs : List Char) : Option String :=
  (splitLinesC cs).findSome? (fun line =>
    match line with
    | '#' :: ' ' :: rest =>
      if rest.isEmpty then none else some (String.mk rest)
    | _ => none)

/-- The note record fields relevant to the verification, as assembled by
buildNoteRecord in index.ts: the title falls back from the first heading
to the frontmatter title, and the content is the link-resolved,
image-processed body truncated to MAX_CONTENT characters. -/
structure NoteRecord where
  title : String
  content : String
  images : List ImageRecord
  deriving Repr, DecidableEq

def buildNoteRecord (upload : String → Option BlobObject) (post : BlogPost)
    (allPosts : List BlogPost) : NoteRecord :=
  let trimmed := trimStr post.content
  let title := (firstHeading trimmed.toList).getD post.frontmatter.title
  let r := processNoteContent upload post allPosts
  { title := title, content := sliceContent r.1, images := r.2 }

/-- The note record assembled inline by createNote/updateNote of
publish-lite.ts: the raw body truncated to MAX_CONTENT characters,
no link resolution and no images. -/
def buildNoteRecordLite (post : BlogPost) : NoteRecord :=
  { title := post.frontmatter.title, content := sliceContent post.content,
    images := [] }

/-! ## Local diff of the publish command
(publish-lite.ts 299-330 and publish.ts 212-241, identical logic) -/

inductive PublishAction | create | update
  deriving Repr, DecidableEq

inductive PublishReason | contentChanged | forced | newPost | missingState
  deriving Repr, DecidableEq

/-- Classification of one scanned non-draft document against the state
store: the body of the postsToPublish loop.  none means skip. -/
def classifyPost (force : Bool) (contentHash : String)
    (postState : Option PostState) (post : BlogPost) :
    Option (PublishAction × PublishReason) :=
  if force then
    some (if strSet post.frontmatter.atUri then .update else .create, .forced)
  else
    match postState with
    | none =>
      some (if strSet post.frontmatter.atUri then .update else .create,
        if strSet post.frontmatter.atUri then .missingState else .newPost)
    | some ps =>
      if ps.contentHash != contentHash then
        some (if strSet post.frontmatter.atUri then .update else .create,
          .contentChanged)
      else none

/-- The full loop: draft posts are diverted to the draft report, every
other post is classified; hash is the content fingerprint and stateOf
the state-store lookup keyed by the path relative to the config root. -/
def localDiff (force : Bool) (hash : String → String)
    (stateOf : String → Option PostState) (posts : List BlogPost) :
    List (BlogPost × PublishAction × PublishReason) × List BlogPost :=
  (posts.filterMap (fun post =>
      if post.frontmatter.draft then none
      else
        (classifyPost force (hash post.rawContent) (stateOf post.filePath)
          post).map (fun ar => (post, ar))),
    posts.filter (fun post => post.frontmatter.draft))

/-! ## String and scanner lemmas -/

theorem strMk_toList (s : String) : String.mk s.toList = s := by
  cases s; rfl

theorem strToList_append (a b : String) :
    (a ++ b).toList = a.toList ++ b.toList :=
  String.data_append a b

theorem strMk_inj_of_eq (l : List Char) (s : String) (h : l = s.toList) :
    String.mk l = s := by
  rw [h, strMk_toList]

theorem takeWhile_append_stop (p : Char → Bool) (a : List Char) (c : Char)
    (r : List Char) (ha : ∀ x ∈ a, p x = true) (hc : p c = false) :
    (a ++ c :: r).takeWhile p = a ∧ (a ++ c :: r).dropWhile p = c :: r := by
  induction a with
  | nil => simp [List.takeWhile, List.dropWhile, hc]
  | cons x xs ih =>
    have hx : p x = true := ha x (by simp)
    have ihh := ih (fun y hy => ha y (by simp [hy]))
    simp [List.takeWhile, List.dropWhile, hx, ihh.1, ihh.2]

/-- With the head character not an opening bracket the link pattern
cannot match. -/
theorem tryMatchLink_not_bracket (c : Char) (rest : List Char) (hc : c ≠ '[') :
    tryMatchLink (c :: rest) = none := by
  simp [tryMatchLink, hc]

/-- A scan over content without any opening bracket changes nothing. -/
theorem replaceLinksFuel_no_bracket (f : String → String → String) :
    ∀ (cs : List Char), '[' ∉ cs → ∀ (n : Nat) (prev : Option Char),
      replaceLinksFuel f n prev cs = cs := by
  intro cs
  induction cs with
  | nil => intro _ n prev; cases n <;> rfl
  | cons c rest ih =>
    intro h n prev
    have hc : c ≠ '[' := by intro hh; exact h (by simp [hh])
    have hrest : '[' ∉ rest := by intro hh; exact h (by simp [hh])
    cases n with
    | zero => rfl
    | succ m =>
      simp only [replaceLinksFuel, tryMatchLink_not_bracket c rest hc]
      by_cases hb : lbAllow prev = true
      · simp [hb, ih hrest]
      · simp only [Bool.not_eq_true] at hb
        simp [hb, ih hrest]

/-- A scan over content without any opening bracket collects nothing. -/
theorem collectLinksFuel_no_bracket :
    ∀ (cs : List Char), '[' ∉ cs → ∀ (n : Nat) (prev : Option Char),
      collectLinksFuel n prev cs = [] := by
  intro cs
  induction cs with
  | nil => intro _ n prev; cases n <;> rfl
  | cons c rest ih =>
    intro h n prev
    have hc : c ≠ '[' := by intro hh; exact h (by simp [hh])
    have hrest : '[' ∉ rest := by intro hh; exact h (by simp [hh])
    cases n with
    | zero => rfl
    | succ m =>
      simp only [collectLinksFuel, tryMatchLink_not_bracket c rest hc]
      by_cases hb : lbAllow prev = true
      · simp [hb, ih hrest]
      · simp only [Bool.not_eq_true] at hb
        simp [hb, ih hrest]

/-- The link pattern on the exact single-link content. -/
theorem tryMatchLink_exact (t u : List Char) (ht : t ≠ []) (hu : u ≠ [])
    (htb : ']' ∉ t) (hub : ')' ∉ u) :
    tryMatchLink ('[' :: (t ++ ']' :: ('(' :: (u ++ [')'])))) = some (t, u, []) := by
  have h1 : splitAtFirstP (fun c => c == ']') (t ++ ']' :: ('(' :: (u ++ [')']))) =
      some (t, '(' :: (u ++ [')'])) := by
    apply splitAtFirstP_append
    · intro y hy
      simp only [beq_eq_false_iff_ne, ne_eq]
      intro hh; exact htb (hh ▸ hy)
    · simp
  have h2 : splitAtFirstP (fun c => c == ')') (u ++ [')']) = some (u, []) := by
    have : (u ++ [')'] : List Char) = u ++ ')' :: [] := by simp
    rw [this]
    apply splitAtFirstP_append
    · intro y hy
      simp only [beq_eq_false_iff_ne, ne_eq]
      intro hh; exact hub (hh ▸ hy)
    · simp
  simp only [tryMatchLink, if_pos rfl, h1]
  have ht' : t.isEmpty = false := by
    cases t with
    | nil => exact absurd rfl ht
    | cons a as => rfl
  have hu' : u.isEmpty = false := by
    cases u with
    | nil => exact absurd rfl hu
    | cons a as => rfl
  simp [ht', matchLinkTail, h2, hu']

/-- Scanning a content consisting of exactly one plain reference link
applies the callback to its text and target. -/
theorem resolve_single_link (posts : List BlogPost) (t u : String)
    (ht : t.toList ≠ []) (hu : u.toList ≠ [])
    (htb : ']' ∉ t.toList) (hub : ')' ∉ u.toList) :
    resolveInternalLinks ("[" ++ t ++ "](" ++ u ++ ")") posts =
      resolveCallback posts t u := by
  have hdata : ("[" ++ t ++ "](" ++ u ++ ")").toList =
      '[' :: (t.toList ++ ']' :: ('(' :: (u.toList ++ [')']))) := by
    simp [strToList_append]
  rw [resolveInternalLinks, hdata]
  simp only [List.length_cons]
  rw [replaceLinksFuel]
  have hm := tryMatchLink_exact t.toList u.toList ht hu htb hub
  simp only [lbAllow, if_pos rfl, hm, strMk_toList]
  have hempty : ∀ (n : Nat),
      replaceLinksFuel (resolveCallback posts) n (some ')') [] = [] := by
    intro n; cases n <;> rfl
  rw [hempty]
  simp [strMk_toList]

/-! ## C3 -/

/-- C3 counterexample input: an intra-collection reference whose target
matches no candidate document. -/
theorem c3_unmatched_left_unchanged_cex :
    resolveInternalLinks "[t](./nope)" [] = "t" ∧
      ("t" : String) ≠ "[t](./nope)" := by
  constructor
  · rfl
  · decide

/-- C3 (amended): external URLs, anchors and mailto targets are never
touched by resolveInternalLinks; but an intra-collection target that
matches no candidate document does not keep its link syntax — the
reference is reduced to its display text. -/
theorem c3_link_targets_amended (posts : List BlogPost) (t u : String)
    (ht : t.toList ≠ []) (hu : u.toList ≠ [])
    (htb : ']' ∉ t.toList) (hub : ')' ∉ u.toList) :
    (isLocalPath u = false →
      resolveInternalLinks ("[" ++ t ++ "](" ++ u ++ ")") posts =
        "[" ++ t ++ "](" ++ u ++ ")") ∧
    (isLocalPath u = true → findLinkTarget posts (normalizeUrl u) = none →
      resolveInternalLinks ("[" ++ t ++ "](" ++ u ++ ")") posts = t) := by
  constructor
  · intro hloc
    rw [resolve_single_link posts t u ht hu htb hub]
    simp [resolveCallback, hloc]
  · intro hloc hfind
    rw [resolve_single_link posts t u ht hu htb hub]
    simp [resolveCallback, hloc, hfind]

theorem c3_link_targets_amended_witness :
    (("t" : String).toList ≠ [] ∧ ("https://example.com" : String).toList ≠ [] ∧
      ']' ∉ ("t" : String).toList ∧ ')' ∉ ("https://example.com" : String).toList) ∧
    ((isLocalPath "https://example.com" = false →
      resolveInternalLinks "[t](https://example.com)" [] = "[t](https://example.com)") ∧
    (isLocalPath "https://example.com" = true →
      findLinkTarget [] (normalizeUrl "https://example.com") = none →
      resolveInternalLinks "[t](https://example.com)" [] = "t")) :=
  ⟨⟨by decide, by decide, by decide, by decide⟩,
    c3_link_targets_amended [] "t" "https://example.com"
      (by decide) (by decide) (by decide) (by decide)⟩

/-! ## C4 -/

/-- An unpublished document whose slug matches the target "./x". -/
def c4UnpubDoc : BlogPost :=
  { filePath := "content/x.md", slug := "x",
    frontmatter := { title := "x", publishDate := "2024-01-01" },
    content := "", rawContent := "" }

/-- A published document whose slug also path-suffix-matches "./x". -/
def c4PubDoc : BlogPost :=
  { filePath := "content/blog/x.md", slug := "blog/x",
    frontmatter :=
      { title := "x2", publishDate := "2024-01-01", atUri := some "at://did/coll/k" },
    content := "", rawContent := "" }

/-- C4 counterexample: the target matches a known local document without
a remote identity (c4UnpubDoc, first in list order), yet the reference
is not reduced to its display text — candidates without atUri are
skipped, and the later published suffix-match wins. -/
theorem c4_unpublished_plain_text_cex :
    slugMatches c4UnpubDoc.slug (normalizeUrl "./x") = true ∧
    c4UnpubDoc.frontmatter.atUri = none ∧
    resolveInternalLinks "[t](./x)" [c4UnpubDoc, c4PubDoc] =
      "[t](at://did/space.remanso.note/k)" ∧
    resolveInternalLinks "[t](./x)" [c4UnpubDoc, c4PubDoc] ≠ "t" :=
  ⟨by decide, rfl, by rfl, by decide⟩

/-- C4 (amended): a plain reference whose target matches a known local
document without a remote identity is replaced by its plain display
text, provided no document with a remote identity also matches the
target (documents without atUri are skipped during matching, so a
published match anywhere in the list takes precedence). -/
theorem c4_unpublished_plain_text_amended (posts : List BlogPost)
    (p : BlogPost) (t u : String)
    (ht : t.toList ≠ []) (hu : u.toList ≠ [])
    (htb : ']' ∉ t.toList) (hub : ')' ∉ u.toList)
    (hlocal : isLocalPath u = true)
    (hp : p ∈ posts) (hmatch : slugMatches p.slug (normalizeUrl u) = true)
    (hnone : strSet p.frontmatter.atUri = false)
    (hnopub : findLinkTarget posts (normalizeUrl u) = none) :
    resolveInternalLinks ("[" ++ t ++ "](" ++ u ++ ")") posts = t := by
  rw [resolve_single_link posts t u ht hu htb hub]
  simp [resolveCallback, hlocal, hnopub]

theorem c4_unpublished_plain_text_amended_witness :
    (("t" : String).toList ≠ [] ∧ ("./x" : String).toList ≠ [] ∧
      ']' ∉ ("t" : String).toList ∧ ')' ∉ ("./x" : String).toList ∧
      isLocalPath "./x" = true ∧ c4UnpubDoc ∈ [c4UnpubDoc] ∧
      slugMatches c4UnpubDoc.slug (normalizeUrl "./x") = true ∧
      strSet c4UnpubDoc.frontmatter.atUri = false ∧
      findLinkTarget [c4UnpubDoc] (normalizeUrl "./x") = none) ∧
    resolveInternalLinks "[t](./x)" [c4UnpubDoc] = "t" :=
  ⟨⟨by decide, by decide, by decide, by decide, by decide, by decide,
      by decide, by decide, by decide⟩,
    c4_unpublished_plain_text_amended [c4UnpubDoc] c4UnpubDoc "t" "./x"
      (by decide) (by decide) (by decide) (by decide) (by decide)
      (by decide) (by decide) (by decide) (by decide)⟩

/-! ## C5 -/

theorem noteUriOf_shape (auth coll key : String)
    (hc : coll.toList ≠ []) (hcs : '/' ∉ coll.toList)
    (hk : key.toList ≠ []) (hks : '/' ∉ key.toList) :
    noteUriOf ("at://" ++ auth ++ "/" ++ coll ++ "/" ++ key) =
      "at://" ++ auth ++ "/space.remanso.note/" ++ key := by
  have hL : ("at://" ++ auth ++ "/" ++ coll ++ "/" ++ key).toList.reverse =
      key.toList.reverse ++ '/' :: (coll.toList.reverse ++ '/' ::
        (auth.toList.reverse ++ ("at://" : String).toList.reverse)) := by
    simp [strToList_append]
  have hkpass : ∀ x ∈ key.toList.reverse, (x != '/') = true := by
    intro x hx
    simp only [bne_iff_ne, ne_eq]
    intro hh; exact hks (hh ▸ (List.mem_reverse.mp hx))
  have hcpass : ∀ x ∈ coll.toList.reverse, (x != '/') = true := by
    intro x hx
    simp only [bne_iff_ne, ne_eq]
    intro hh; exact hcs (hh ▸ (List.mem_reverse.mp hx))
  have hslash : (('/' : Char) != '/') = false := by decide
  have h1 := takeWhile_append_stop (fun c => c != '/') key.toList.reverse '/'
    (coll.toList.reverse ++ '/' :: (auth.toList.reverse ++
      ("at://" : String).toList.reverse)) hkpass hslash
  have h2 := takeWhile_append_stop (fun c => c != '/') coll.toList.reverse '/'
    (auth.toList.reverse ++ ("at://" : String).toList.reverse) hcpass hslash
  have hkne : key.toList.reverse.isEmpty = false := by
    cases hx : key.toList.reverse with
    | nil => exact absurd (by simpa using congrArg List.reverse hx) hk
    | cons a as => rfl
  have hcne : coll.toList.reverse.isEmpty = false := by
    cases hx : coll.toList.reverse with
    | nil => exact absurd (by simpa using congrArg List.reverse hx) hc
    | cons a as => rfl
  simp only [noteUriOf, hL, h1.1, h1.2, hkne, Bool.false_eq_true, if_false,
    h2.1, h2.2, hcne]
  apply strMk_inj_of_eq
  simp [strToList_append]

/-- C5: a plain reference whose normalized target finds a published
document with identity at://authority/collection/key is rewritten to the
canonical note reference at://authority/space.remanso.note/key: the same
authority and record key, the secondary note collection, the display
text unchanged.  The conjuncts on normalizeUrl witness the prefix
stripping of the target normalization used for the match. -/
theorem c5_published_rewrite (posts : List BlogPost) (p : BlogPost)
    (t u auth coll key : String)
    (ht : t.toList ≠ []) (hu : u.toList ≠ [])
    (htb : ']' ∉ t.toList) (hub : ')' ∉ u.toList)
    (hlocal : isLocalPath u = true)
    (hfind : findLinkTarget posts (normalizeUrl u) = some p)
    (huri : p.frontmatter.atUri = some ("at://" ++ auth ++ "/" ++ coll ++ "/" ++ key))
    (hc : coll.toList ≠ []) (hcs : '/' ∉ coll.toList)
    (hk : key.toList ≠ []) (hks : '/' ∉ key.toList) :
    resolveInternalLinks ("[" ++ t ++ "](" ++ u ++ ")") posts =
      "[" ++ t ++ "](" ++ ("at://" ++ auth ++ "/space.remanso.note/" ++ key) ++ ")" ∧
    (∀ s : String, normalizeUrl ("./" ++ s) = normalizeUrl s) ∧
    (∀ s : String, normalizeUrl ("../" ++ s) = normalizeUrl s) := by
  refine ⟨?_, ?_, ?_⟩
  · rw [resolve_single_link posts t u ht hu htb hub]
    simp only [resolveCallback, hlocal, Bool.not_true, Bool.false_eq_true,
      if_false, hfind, huri, Option.getD_some]
    rw [noteUriOf_shape auth coll key hc hcs hk hks]
  · intro s
    have : ("./" ++ s).toList = '.' :: '/' :: s.toList := by
      simp [strToList_append]
    simp [normalizeUrl, this, stripDotSegs]
  · intro s
    have : ("../" ++ s).toList = '.' :: '.' :: '/' :: s.toList := by
      simp [strToList_append]
    simp [normalizeUrl, this, stripDotSegs]

/-- A published document used to instantiate C5 on the concrete scenario
of the specification's link-resolution example. -/
def c5WitnessDoc : BlogPost :=
  { filePath := "content/other-post.md", slug := "other-post",
    frontmatter :=
      { title := "o", publishDate := "2024-01-01",
        atUri := some "at://did:plc:abc/site.standard.document/abc123" },
    content := "", rawContent := "" }

theorem c5_published_rewrite_witness :
    (("t" : String).toList ≠ [] ∧ ("./other-post" : String).toList ≠ [] ∧
      ']' ∉ ("t" : String).toList ∧ ')' ∉ ("./other-post" : String).toList ∧
      isLocalPath "./other-post" = true ∧
      findLinkTarget [c5WitnessDoc] (normalizeUrl "./other-post") =
        some c5WitnessDoc) ∧
    resolveInternalLinks "[t](./other-post)" [c5WitnessDoc] =
      "[t](at://did:plc:abc/space.remanso.note/abc123)" :=
  ⟨⟨by decide, by decide, by decide, by decide, by decide, by decide⟩,
    ((c5_published_rewrite [c5WitnessDoc] c5WitnessDoc
      "t" "./other-post" "did:plc:abc" "site.standard.document" "abc123"
      (by decide) (by decide) (by decide) (by decide) (by decide) (by decide)
      (by decide) (by decide) (by decide) (by decide) (by decide)).1)⟩

/-! ## C6 -/

/-- Scanning an embed, a reference preceded by a bang or an at sign,
leaves it unchanged: the first character is not an opening bracket, the
opening bracket is blocked by the lookbehind, and the remaining
characters contain no further opening bracket. -/
theorem replaceLinksFuel_embed (f : String → String → String) (mk : Char)
    (tail : List Char) (htail : '[' ∉ tail) (hmk : mk = '!' ∨ mk = '@') :
    ∀ (n : Nat) (prev : Option Char),
      replaceLinksFuel f (n + 2) prev (mk :: '[' :: tail) = mk :: '[' :: tail := by
  intro n prev
  have hmk' : mk ≠ '[' := by rcases hmk with h | h <;> simp [h]
  have hblock : lbAllow (some mk) = false := by
    rcases hmk with h | h <;> simp [h, lbAllow]
  rw [replaceLinksFuel]
  by_cases hb : lbAllow prev = true
  · rw [if_pos hb, tryMatchLink_not_bracket mk ('[' :: tail) hmk']
    rw [replaceLinksFuel, hblock]
    simp only [Bool.false_eq_true, if_false]
    rw [replaceLinksFuel_no_bracket f tail htail n (some '[')]
  · simp only [Bool.not_eq_true] at hb
    rw [hb]
    simp only [Bool.false_eq_true, if_false]
    rw [replaceLinksFuel, hblock]
    simp only [Bool.false_eq_true, if_false]
    rw [replaceLinksFuel_no_bracket f tail htail n (some '[')]

theorem collectLinksFuel_embed (mk : Char) (tail : List Char)
    (htail : '[' ∉ tail) (hmk : mk = '!' ∨ mk = '@') :
    ∀ (n : Nat) (prev : Option Char),
      collectLinksFuel (n + 2) prev (mk :: '[' :: tail) = [] := by
  intro n prev
  have hmk' : mk ≠ '[' := by rcases hmk with h | h <;> simp [h]
  have hblock : lbAllow (some mk) = false := by
    rcases hmk with h | h <;> simp [h, lbAllow]
  rw [collectLinksFuel]
  by_cases hb : lbAllow prev = true
  · rw [if_pos hb, tryMatchLink_not_bracket mk ('[' :: tail) hmk']
    rw [collectLinksFuel, hblock]
    simp only [Bool.false_eq_true, if_false]
    rw [collectLinksFuel_no_bracket tail htail n (some '[')]
  · simp only [Bool.not_eq_true] at hb
    rw [hb]
    simp only [Bool.false_eq_true, if_false]
    rw [collectLinksFuel, hblock]
    simp only [Bool.false_eq_true, if_false]
    rw [collectLinksFuel_no_bracket tail htail n (some '[')]

theorem embed_toList (mk : Char) (alt src : String) :
    (String.singleton mk ++ "[" ++ alt ++ "](" ++ src ++ ")").toList =
      mk :: '[' :: (alt.toList ++ ']' :: '(' :: (src.toList ++ [')'])) := by
  simp [strToList_append, String.singleton]

/-- C6: image embeds (bang before the reference) and mention embeds
(at sign before the reference) are never rewritten by
resolveInternalLinks, are never collected as link matches, and a post
whose body is such an embed is never reported by
findPostsWithStaleLinks. -/
theorem c6_embeds_never_rewritten (posts : List BlogPost)
    (newSlugs : List String) (excl : List String) (post : BlogPost)
    (mk : Char) (alt src : String) (hmk : mk = '!' ∨ mk = '@')
    (halt : '[' ∉ alt.toList) (hsrc : '[' ∉ src.toList) :
    resolveInternalLinks (String.singleton mk ++ "[" ++ alt ++ "](" ++ src ++ ")")
        posts =
      String.singleton mk ++ "[" ++ alt ++ "](" ++ src ++ ")" ∧
    extractLinks (String.singleton mk ++ "[" ++ alt ++ "](" ++ src ++ ")") = [] ∧
    (post.content = String.singleton mk ++ "[" ++ alt ++ "](" ++ src ++ ")" →
      post ∉ findPostsWithStaleLinks posts newSlugs excl) := by
  have htail : '[' ∉ (alt.toList ++ ']' :: '(' :: (src.toList ++ [')'])) := by
    intro h
    rcases List.mem_append.mp h with h1 | h2
    · exact halt h1
    · rcases List.mem_cons.mp h2 with h3 | h4
      · exact absurd h3 (by decide)
      · rcases List.mem_cons.mp h4 with h5 | h6
        · exact absurd h5 (by decide)
        · rcases List.mem_append.mp h6 with h7 | h8
          · exact hsrc h7
          · simp at h8
  have hlen : (String.singleton mk ++ "[" ++ alt ++ "](" ++ src ++ ")").toList.length =
      (alt.toList ++ ']' :: '(' :: (src.toList ++ [')'])).length + 2 := by
    rw [embed_toList]; simp
  have hext : extractLinks (String.singleton mk ++ "[" ++ alt ++ "](" ++ src ++ ")") = [] := by
    rw [extractLinks, hlen, embed_toList]
    exact collectLinksFuel_embed mk _ htail hmk _ none
  refine ⟨?_, hext, ?_⟩
  · rw [resolveInternalLinks, hlen, embed_toList]
    rw [replaceLinksFuel_embed (resolveCallback posts) mk _ htail hmk _ none]
    rw [← embed_toList, strMk_toList]
  · intro hcontent hmem
    rw [findPostsWithStaleLinks, List.mem_filter] at hmem
    have hpred := hmem.2
    rw [hcontent, hext] at hpred
    simp at hpred

theorem c6_embeds_never_rewritten_witness :
    (('!' : Char) = '!' ∨ ('!' : Char) = '@') ∧
    '[' ∉ ("alt" : String).toList ∧ '[' ∉ ("photo" : String).toList ∧
    (resolveInternalLinks (String.singleton '!' ++ "[" ++ "alt" ++ "](" ++ "photo" ++ ")")
        [c4PubDoc] =
      String.singleton '!' ++ "[" ++ "alt" ++ "](" ++ "photo" ++ ")" ∧
    extractLinks (String.singleton '!' ++ "[" ++ "alt" ++ "](" ++ "photo" ++ ")") = [] ∧
    (c4PubDoc.content = String.singleton '!' ++ "[" ++ "alt" ++ "](" ++ "photo" ++ ")" →
      c4PubDoc ∉ findPostsWithStaleLinks [c4PubDoc] ["photo"] [])) :=
  ⟨Or.inl rfl, by decide, by decide,
    c6_embeds_never_rewritten [c4PubDoc] ["photo"] [] c4PubDoc '!' "alt" "photo"
      (Or.inl rfl) (by decide) (by decide)⟩

/-! ## C7 -/

theorem if_false_chain (a : Bool) (x : Bool) :
    (if a = true then false else x) = (!a && x) := by
  cases a <;> simp

/-- C7: membership in findPostsWithStaleLinks is equivalent to: being a
scanned post, outside the exclude set, already published (truthy atUri),
not a draft, and containing at least one plain local reference whose
normalized target matches some newly published slug by the shared
slug-matching rule. -/
theorem c7_stale_links_characterization (allPosts : List BlogPost)
    (newSlugs : List String) (excl : List String) (post : BlogPost) :
    post ∈ findPostsWithStaleLinks allPosts newSlugs excl ↔
      post ∈ allPosts ∧ excl.contains post.filePath = false ∧
      strSet post.frontmatter.atUri = true ∧ post.frontmatter.draft = false ∧
      ∃ m ∈ extractLinks post.content, isLocalPath m.2 = true ∧
        ∃ slug ∈ newSlugs, slugMatches slug (normalizeUrl m.2) = true := by
  rw [findPostsWithStaleLinks, List.mem_filter]
  rw [if_false_chain, if_false_chain, if_false_chain]
  simp only [Bool.and_eq_true, Bool.not_eq_true', Bool.not_eq_false',
    List.any_eq_true, and_assoc]

/-! ## C8 -/

/-- C8: loadState returns the empty mapping whenever the state file is
missing (the read fails) or its contents cannot be parsed, and otherwise
returns the parsed state; it never propagates a failure. -/
theorem c8_loadState_tolerant (readFile : String → Option String)
    (parseState : String → Option PublisherState) (configDir : String) :
    (readFile (configDir ++ "/" ++ ".remanso-state.json") = none →
      loadState readFile parseState configDir = { posts := [] }) ∧
    (∀ c, readFile (configDir ++ "/" ++ ".remanso-state.json") = some c →
      parseState c = none →
      loadState readFile parseState configDir = { posts := [] }) ∧
    (∀ c st, readFile (configDir ++ "/" ++ ".remanso-state.json") = some c →
      parseState c = some st →
      loadState readFile parseState configDir = st) := by
  refine ⟨?_, ?_, ?_⟩
  · intro h; simp [loadState, h]
  · intro c h1 h2; simp [loadState, h1, h2]
  · intro c st h1 h2; simp [loadState, h1, h2]

theorem c8_loadState_tolerant_witness :
    loadState (fun _ => none) (fun _ => none) "proj" = { posts := [] } ∧
    loadState (fun _ => some "corrupt") (fun _ => none) "proj" = { posts := [] } :=
  ⟨(c8_loadState_tolerant (fun _ => none) (fun _ => none) "proj").1 rfl,
    (c8_loadState_tolerant (fun _ => some "corrupt") (fun _ => none) "proj").2.1
      "corrupt" rfl rfl⟩

/-! ## C9 -/

/-- C9 counterexample: parseRkey succeeds on an identifier with four
slash-separated segments after the scheme, returning a record key that
itself contains a separator — it does not fail on every shape other
than exactly three segments. -/
theorem c9_parseRkey_cex :
    parseRkey "at://a/b/c/d" = Except.ok "c/d" ∧
      '/' ∈ ("c/d" : String).toList :=
  ⟨by rfl, by decide⟩

/-- C9 (amended): parseRkey succeeds exactly on identifiers of the form
at-scheme, nonempty slash-free authority, nonempty slash-free
collection, then a nonempty record key free of line terminators; the
record key is everything after the third slash and may itself contain
further slashes.  Every other input fails with an explicit
Invalid-atUri error. -/
theorem c9_parseRkey_amended (s k : String) :
    parseRkey s = Except.ok k ↔
      ∃ auth coll : String,
        s = "at://" ++ auth ++ "/" ++ coll ++ "/" ++ k ∧
        auth.toList ≠ [] ∧ '/' ∉ auth.toList ∧
        coll.toList ≠ [] ∧ '/' ∉ coll.toList ∧
        k.toList ≠ [] ∧ ∀ c ∈ k.toList, isLineTerm c = false := by
  constructor
  · intro h
    rw [parseRkey] at h
    cases hp : parseAtUriParts s with
    | none => rw [hp] at h; exact Except.noConfusion h
    | some parts =>
      rw [hp] at h
      injection h with hk
      rw [parseAtUriParts] at hp
      split at hp
      · rename_i hpre
        have hprefix := List.isPrefixOf_iff_prefix.mp hpre
        obtain ⟨rest, hrest⟩ := hprefix
        have hdrop : s.toList.drop 5 = rest := by
          rw [← hrest]
          exact List.drop_left ("at://" : String).toList rest
        rw [hdrop] at hp
        cases h1 : splitAtFirstP (fun c => c == '/') rest with
        | none =>
          simp only [h1] at hp
          exact Option.noConfusion hp
        | some v1 =>
          obtain ⟨seg1, rest2⟩ := v1
          simp only [h1] at hp
          obtain ⟨⟨x1, hx1, hsh1⟩, hnon1⟩ := splitAtFirstP_eq_some _ rest seg1 rest2 h1
          have hx1' : x1 = '/' := by simpa using hx1
          subst hx1'
          split at hp
          · exact Option.noConfusion hp
          · rename_i hne1
            cases h2 : splitAtFirstP (fun c => c == '/') rest2 with
            | none =>
              simp only [h2] at hp
              exact Option.noConfusion hp
            | some v2 =>
              obtain ⟨seg2, rest3⟩ := v2
              simp only [h2] at hp
              obtain ⟨⟨x2, hx2, hsh2⟩, hnon2⟩ :=
                splitAtFirstP_eq_some _ rest2 seg2 rest3 h2
              have hx2' : x2 = '/' := by simpa using hx2
              subst hx2'
              split at hp
              · exact Option.noConfusion hp
              · split at hp
                · exact Option.noConfusion hp
                · rename_i hne2 hrest3
                  injection hp with hparts
                  refine ⟨String.mk seg1, String.mk seg2, ?_, ?_, ?_, ?_, ?_, ?_, ?_⟩
                  · have hks : k.toList = rest3 := by
                      rw [← hk, ← hparts]
                      rfl
                    apply String.ext
                    show s.toList =
                      ("at://" ++ String.mk seg1 ++ "/" ++ String.mk seg2 ++ "/" ++ k).toList
                    rw [← hrest, hsh1, hsh2]
                    simp only [strToList_append, List.append_assoc, List.cons_append,
                      List.nil_append]
                    rw [show (String.mk seg1).toList = seg1 from rfl,
                      show (String.mk seg2).toList = seg2 from rfl, ← hks]
                    rfl
                  · simpa [List.isEmpty_iff] using hne1
                  · intro hmm
                    have := hnon1 '/' hmm
                    simp at this
                  · simpa [List.isEmpty_iff] using hne2
                  · intro hmm
                    have := hnon2 '/' hmm
                    simp at this
                  · have hks : k.toList = rest3 := by
                      rw [← hk, ← hparts]
                      rfl
                    rw [hks]
                    rw [Bool.not_eq_true, Bool.or_eq_false_iff] at hrest3
                    simpa [List.isEmpty_iff] using hrest3.1
                  · have hks : k.toList = rest3 := by
                      rw [← hk, ← hparts]
                      rfl
                    rw [hks]
                    rw [Bool.not_eq_true, Bool.or_eq_false_iff] at hrest3
                    intro c hc
                    rw [List.any_eq_false] at hrest3
                    simpa using hrest3.2 c hc
      · exact Option.noConfusion hp
  · rintro ⟨auth, coll, hs, hane, hasl, hcne, hcsl, hkne, hkterm⟩
    have hlist : s.toList = ("at://" : String).toList ++
        (auth.toList ++ '/' :: (coll.toList ++ '/' :: k.toList)) := by
      rw [hs]; simp [strToList_append]
    have hpre : ("at://" : String).toList.isPrefixOf s.toList = true := by
      rw [hlist]
      exact List.isPrefixOf_iff_prefix.mpr ⟨_, rfl⟩
    have hdrop : s.toList.drop 5 =
        auth.toList ++ '/' :: (coll.toList ++ '/' :: k.toList) := by
      rw [hlist]
      exact List.drop_left ("at://" : String).toList _
    have h1 : splitAtFirstP (fun c => c == '/')
        (auth.toList ++ '/' :: (coll.toList ++ '/' :: k.toList)) =
        some (auth.toList, coll.toList ++ '/' :: k.toList) := by
      apply splitAtFirstP_append
      · intro y hy
        simp only [beq_eq_false_iff_ne, ne_eq]
        intro hh; exact hasl (hh ▸ hy)
      · simp
    have h2 : splitAtFirstP (fun c => c == '/') (coll.toList ++ '/' :: k.toList) =
        some (coll.toList, k.toList) := by
      apply splitAtFirstP_append
      · intro y hy
        simp only [beq_eq_false_iff_ne, ne_eq]
        intro hh; exact hcsl (hh ▸ hy)
      · simp
    have ha' : auth.toList.isEmpty = false := by
      cases hx : auth.toList with
      | nil => exact absurd hx hane
      | cons a as => rfl
    have hc' : coll.toList.isEmpty = false := by
      cases hx : coll.toList with
      | nil => exact absurd hx hcne
      | cons a as => rfl
    have hk' : k.toList.isEmpty = false := by
      cases hx : k.toList with
      | nil => exact absurd hx hkne
      | cons a as => rfl
    have hterm : k.toList.any isLineTerm = false := by
      rw [List.any_eq_false]
      intro c hc
      simp [hkterm c hc]
    rw [parseRkey, parseAtUriParts, if_pos hpre, hdrop]
    simp only [h1, h2, ha', hc', hk', hterm, Bool.or_self, Bool.false_eq_true,
      if_false]
    rfl

/-! ## C10 -/

/-- C10: every note record carries a content field of at most MAX_CONTENT
characters; the remanso record truncates the link-resolved,
image-processed body, and the publish-lite record truncates the raw
body, both with slice(0, 10000). -/
theorem c10_note_content_bounded (upload : String → Option BlobObject)
    (post : BlogPost) (allPosts : List BlogPost) :
    (buildNoteRecord upload post allPosts).content.length ≤ MAX_CONTENT ∧
    (buildNoteRecordLite post).content.length ≤ MAX_CONTENT ∧
    (buildNoteRecord upload post allPosts).content =
      sliceContent (processNoteContent upload post allPosts).1 ∧
    (buildNoteRecordLite post).content = sliceContent post.content := by
  refine ⟨?_, ?_, rfl, rfl⟩
  · show (sliceContent (processNoteContent upload post allPosts).1).length ≤ MAX_CONTENT
    rw [sliceContent, String.length_mk, List.length_take]
    exact min_le_left _ _
  · show (sliceContent post.content).length ≤ MAX_CONTENT
    rw [sliceContent, String.length_mk, List.length_take]
    exact min_le_left _ _

/-! ## C1 -/

/-- Unfolding of classifyPost at an absent forced flag and an absent
state entry. -/
theorem classifyPost_none_unfold (ch : String) (post : BlogPost) :
    classifyPost false ch none post =
      some ((if strSet post.frontmatter.atUri then PublishAction.update else PublishAction.create),
        (if strSet post.frontmatter.atUri then PublishReason.missingState else PublishReason.newPost)) := rfl

/-- Unfolding of classifyPost at an absent forced flag and a present
state entry. -/
theorem classifyPost_some_unfold (ch : String) (ps : PostState) (post : BlogPost) :
    classifyPost false ch (some ps) post =
      if ps.contentHash != ch then
        some ((if strSet post.frontmatter.atUri then PublishAction.update else PublishAction.create),
          PublishReason.contentChanged)
      else none := rfl

/-- A produced plan entry determines the post it classifies: the loop
body maps each non-draft post to its own plan entry. -/
theorem localDiff_entry_src (force : Bool) (hash : String → String)
    (stateOf : String → Option PostState) (x : BlogPost)
    (e : BlogPost × PublishAction × PublishReason)
    (hx : (if x.frontmatter.draft then none
      else (classifyPost force (hash x.rawContent) (stateOf x.filePath) x).map
        (fun ar => (x, ar))) = some e) :
    e.1 = x ∧ x.frontmatter.draft = false ∧
      classifyPost force (hash x.rawContent) (stateOf x.filePath) x = some e.2 := by
  split at hx
  · exact Option.noConfusion hx
  · rename_i hdr
    rw [Option.map_eq_some'] at hx
    obtain ⟨ar, har, he⟩ := hx
    refine ⟨by rw [← he], by simpa using hdr, by rw [har, ← he]⟩

/-- C1: the local diff of a publish run classifies each scanned document
as the specification describes, except that drafts always go to the
separate draft report.  With the forced flag every non-draft document is
queued (action by presence of the remote identity); with no state entry
it is queued as create or update by presence of the remote identity,
with the matching reason; with a state entry it is queued (reason
content-changed) exactly when the recomputed hash differs from the
stored one, an update classification in that situation certifies both a
present remote identity and a hash difference, and a matching hash means
the document appears in no plan entry. -/
theorem c1_localDiff_classification (force : Bool) (hash : String → String)
    (stateOf : String → Option PostState) (posts : List BlogPost)
    (post : BlogPost) (hmem : post ∈ posts) :
    (post.frontmatter.draft = true →
      post ∈ (localDiff force hash stateOf posts).2 ∧
      ∀ e ∈ (localDiff force hash stateOf posts).1, e.1 ≠ post) ∧
    (post.frontmatter.draft = false → force = true →
      (post,
        (if strSet post.frontmatter.atUri then PublishAction.update else PublishAction.create),
        PublishReason.forced) ∈ (localDiff force hash stateOf posts).1) ∧
    (post.frontmatter.draft = false → force = false →
      stateOf post.filePath = none →
      (post,
        (if strSet post.frontmatter.atUri then PublishAction.update else PublishAction.create),
        (if strSet post.frontmatter.atUri then PublishReason.missingState else PublishReason.newPost)) ∈
        (localDiff force hash stateOf posts).1) ∧
    (post.frontmatter.draft = false → force = false →
      ∀ ps, stateOf post.filePath = some ps →
      (ps.contentHash ≠ hash post.rawContent →
        (post,
          (if strSet post.frontmatter.atUri then PublishAction.update else PublishAction.create),
          PublishReason.contentChanged) ∈ (localDiff force hash stateOf posts).1) ∧
      (ps.contentHash = hash post.rawContent →
        ∀ e ∈ (localDiff force hash stateOf posts).1, e.1 ≠ post) ∧
      (∀ r, (post, PublishAction.update, r) ∈ (localDiff force hash stateOf posts).1 →
        strSet post.frontmatter.atUri = true ∧
          ps.contentHash ≠ hash post.rawContent)) := by
  refine ⟨?_, ?_, ?_, ?_⟩
  · intro hdraft
    constructor
    · exact List.mem_filter.mpr ⟨hmem, by simp [hdraft]⟩
    · intro e he hfst
      rw [localDiff, List.mem_filterMap] at he
      obtain ⟨x, _, hx⟩ := he
      obtain ⟨hfst', hdr, _⟩ :=
        localDiff_entry_src force hash stateOf x e hx
      rw [hfst] at hfst'
      rw [← hfst'] at hdr
      rw [hdraft] at hdr
      exact Bool.noConfusion hdr
  · intro hdraft hforce
    rw [localDiff, List.mem_filterMap]
    refine ⟨post, hmem, ?_⟩
    simp [hdraft, classifyPost, hforce]
  · intro hdraft hforce hstate
    rw [localDiff, List.mem_filterMap]
    refine ⟨post, hmem, ?_⟩
    simp [hdraft, classifyPost, hforce, hstate]
  · intro hdraft hforce ps hstate
    refine ⟨?_, ?_, ?_⟩
    · intro hne
      rw [localDiff, List.mem_filterMap]
      refine ⟨post, hmem, ?_⟩
      have hbne : (ps.contentHash != hash post.rawContent) = true := by
        simpa using hne
      simp [hdraft, classifyPost, hforce, hstate, hbne]
    · intro heq e he hfst
      rw [localDiff, List.mem_filterMap] at he
      obtain ⟨x, _, hx⟩ := he
      obtain ⟨hfst', hdr, hcl⟩ :=
        localDiff_entry_src force hash stateOf x e hx
      rw [hfst] at hfst'
      subst hfst'
      rw [hforce, hstate, classifyPost_some_unfold] at hcl
      have hbne : (ps.contentHash != hash post.rawContent) = false := by
        simpa using heq
      rw [hbne] at hcl
      simp at hcl
    · intro r hr
      rw [localDiff, List.mem_filterMap] at hr
      obtain ⟨x, _, hx⟩ := hr
      obtain ⟨hfst', hdr, hcl⟩ :=
        localDiff_entry_src force hash stateOf x
          (post, PublishAction.update, r) hx
      have hxp : x = post := hfst'.symm
      subst hxp
      rw [hforce, hstate, classifyPost_some_unfold] at hcl
      by_cases hbe : ps.contentHash = hash x.rawContent
      · have hbne : (ps.contentHash != hash x.rawContent) = false := by
          simpa using hbe
        rw [hbne] at hcl
        simp at hcl
      · have hbne : (ps.contentHash != hash x.rawContent) = true := by
          simpa using hbe
        rw [hbne] at hcl
        simp only [if_true] at hcl
        refine ⟨?_, hbe⟩
        by_cases hatt : strSet x.frontmatter.atUri = true
        · exact hatt
        · rw [Bool.not_eq_true] at hatt
          rw [if_neg (by simp [hatt])] at hcl
          injection hcl with hcl'
          rw [Prod.mk.injEq] at hcl'
          exact absurd hcl'.1 (by simp)

theorem c1_localDiff_classification_witness :
    c4UnpubDoc ∈ [c4UnpubDoc] ∧
    (c4UnpubDoc.frontmatter.draft = false → false = false →
      (fun _ => (none : Option PostState)) c4UnpubDoc.filePath = none →
      (c4UnpubDoc,
        (if strSet c4UnpubDoc.frontmatter.atUri then PublishAction.update else PublishAction.create),
        (if strSet c4UnpubDoc.frontmatter.atUri then PublishReason.missingState else PublishReason.newPost)) ∈
        (localDiff false (fun _ => "h") (fun _ => none) [c4UnpubDoc]).1) :=
  ⟨by decide,
    (c1_localDiff_classification false (fun _ => "h") (fun _ => none)
      [c4UnpubDoc] c4UnpubDoc (by decide)).2.2.1⟩

/-! ## C2: reconciliation model

The idempotence claim needs the parts of the pipeline that live in the
markdown library (scanContentDirectory, parseFrontmatter, getContentHash,
updateFrontmatterWithAtUri) whose source is not part of this repository
snapshot — only its tests and callers are.  Those parts are modelled
from the specification below; a document is represented by its list of
lines (the spec prescribes a line-oriented tokenizer), and the content
fingerprint is an arbitrary function of the lines. -/

/-- One line of a document. -/
abbrev Line := List Char

/-- Generic first-occurrence split, the list-of-lines counterpart of
splitAtFirstP. -/
def splitFirst {α : Type} (p : α → Bool) : List α → Option (List α × List α)
  | [] => none
  | x :: xs =>
    if p x then some ([], xs)
    else (splitFirst p xs).map (fun r => (x :: r.1, r.2))

theorem splitFirst_append {α : Type} (p : α → Bool) (a : List α) (x : α) (b : List α)
    (ha : ∀ y ∈ a, p y = false) (hx : p x = true) :
    splitFirst p (a ++ x :: b) = some (a, b) := by
  induction a with
  | nil => simp [splitFirst, hx]
  | cons y ys ih =>
    have hy : p y = false := ha y (by simp)
    have ihh := ih (fun z hz => ha z (by simp [hz]))
    simp [splitFirst, hy, ihh]

theorem splitFirst_eq_some {α : Type} (p : α → Bool) :
    ∀ (l a b : List α), splitFirst p l = some (a, b) →
      (∃ x, p x = true ∧ l = a ++ x :: b) ∧ ∀ y ∈ a, p y = false := by
  intro l
  induction l with
  | nil => intro a b h; simp [splitFirst] at h
  | cons x xs ih =>
    intro a b h
    by_cases hx : p x = true
    · simp only [splitFirst, hx, if_true] at h
      injection h with h1
      rw [Prod.mk.injEq] at h1
      obtain ⟨ha, hb⟩ := h1
      subst ha; subst hb
      exact ⟨⟨x, hx, rfl⟩, by intro y hy; simp at hy⟩
    · have hx' : p x = false := by simpa using hx
      simp only [splitFirst, hx', Bool.false_eq_true, if_false,
        Option.map_eq_some'] at h
      obtain ⟨⟨a0, b0⟩, hsplit, hpair⟩ := h
      rw [Prod.mk.injEq] at hpair
      obtain ⟨ha, hb⟩ := hpair
      subst ha; subst hb
      obtain ⟨⟨z, hz, hl⟩, hall⟩ := ih a0 b0 hsplit
      refine ⟨⟨z, hz, by simp [hl]⟩, ?_⟩
      intro y hy
      rcases List.mem_cons.mp hy with h1 | h2
      · simpa [h1] using hx'
      · exact hall y h2

/-- Modelled from the spec: the three alternative metadata-block
delimiter markers (each a fixed three-character marker alone on its own
line); the markdown library parser recognizing them is not in the
snapshot. -/
def fmDelims : List Line := [['-', '-', '-'], ['+', '+', '+'], ['*', '*', '*']]

def isDelim (l : Line) : Bool := fmDelims.contains l

/-- Modelled from the spec: locate the metadata block — the marker must
open the document on its own first line, and the block runs to the first
following line holding the same marker.  A document not opening with a
marker (or with an unterminated block) has no metadata block; matching
the open question of the spec, the model treats both silently as
block-less. -/
def fmBlock (ls : List Line) : Option (Line × List Line × List Line) :=
  match ls with
  | [] => none
  | d :: rest =>
    if isDelim d then
      match splitFirst (fun l => l == d) rest with
      | some (block, after) => some (d, block, after)
      | none => none
    else none

/-- Modelled from the spec: strip one layer of surrounding matching
quotes from a scalar value. -/
def stripQuotesC (l : Line) : Line :=
  match l with
  | '"' :: rest => if rest.getLast? = some '"' then rest.dropLast else l
  | '\'' :: rest => if rest.getLast? = some '\'' then rest.dropLast else l
  | _ => l

/-- Modelled from the spec: extract the remote-identity field from the
metadata block — a key-value line in either assignment style, quotes
stripped.  The field is absent without a metadata block. -/
def parseAtUriC (ls : List Line) : Option String :=
  match fmBlock ls with
  | none => none
  | some (_, block, _) =>
    block.findSome? (fun l =>
      if ("atUri: ").toList.isPrefixOf l then
        some (String.mk (stripQuotesC (l.drop 7)))
      else if ("atUri = ").toList.isPrefixOf l then
        some (String.mk (stripQuotesC (l.drop 8)))
      else none)

/-- Modelled from the spec: the draft flag — the unquoted boolean true
on a draft key-value line of the metadata block; false by default. -/
def parseDraftC (ls : List Line) : Bool :=
  (match fmBlock ls with
  | none => none
  | some (_, block, _) =>
    block.findSome? (fun l =>
      if ("draft: ").toList.isPrefixOf l then some (l.drop 7 == ("true").toList)
      else if ("draft = ").toList.isPrefixOf l then some (l.drop 8 == ("true").toList)
      else none)).getD false

/-- Whether a line declares the remote-identity field (either assignment
style). -/
def isAtUriKey (l : Line) : Bool :=
  ("atUri: ").toList.isPrefixOf l || ("atUri = ").toList.isPrefixOf l

/-- The remote-identity line synthesized for a given delimiter family:
the quoted assignment observed in the library tests. -/
def atUriLineFor (d : Line) (uri : String) : Line :=
  if d == ['+', '+', '+'] then ("atUri = \"").toList ++ uri.toList ++ ['"']
  else ("atUri: \"").toList ++ uri.toList ++ ['"']

/-- Modelled from the spec: the targeted frontmatter rewrite — inside an
existing metadata block the remote-identity line is replaced in place
(or appended before the closing marker when absent); without a block a
fresh block holding only the remote-identity line is prepended. -/
def updateFrontmatterWithAtUri (ls : List Line) (uri : String) : List Line :=
  match fmBlock ls with
  | some (d, block, after) =>
    let line := atUriLineFor d uri
    let block2 :=
      if block.any isAtUriKey then
        block.map (fun l => if isAtUriKey l then line else l)
      else block ++ [line]
    d :: (block2 ++ (d :: after))
  | none =>
    ['-', '-', '-'] :: atUriLineFor ['-', '-', '-'] uri :: ['-', '-', '-'] :: ls

/-! ### Round-trip facts for the frontmatter rewrite -/

/-- The extraction function used by parseAtUriC on one line. -/
def atUriFn (l : Line) : Option String :=
  if ("atUri: ").toList.isPrefixOf l then
    some (String.mk (stripQuotesC (l.drop 7)))
  else if ("atUri = ").toList.isPrefixOf l then
    some (String.mk (stripQuotesC (l.drop 8)))
  else none

/-- The extraction function used by parseDraftC on one line. -/
def draftFn (l : Line) : Option Bool :=
  if ("draft: ").toList.isPrefixOf l then some (l.drop 7 == ("true").toList)
  else if ("draft = ").toList.isPrefixOf l then some (l.drop 8 == ("true").toList)
  else none

theorem parseAtUriC_eq (ls : List Line) :
    parseAtUriC ls = match fmBlock ls with
      | none => none
      | some (_, block, _) => block.findSome? atUriFn := rfl

theorem parseDraftC_eq (ls : List Line) :
    parseDraftC ls = (match fmBlock ls with
      | none => none
      | some (_, block, _) => block.findSome? draftFn).getD false := rfl

theorem stripQuotesC_wrap (u : String) :
    stripQuotesC ('"' :: (u.toList ++ ['"'])) = u.toList := by
  simp [stripQuotesC, List.getLast?_concat, List.dropLast_concat]

theorem atUriFn_line (d : Line) (u : String) :
    atUriFn (atUriLineFor d u) = some u := by
  rw [atUriLineFor]
  by_cases hd : (d == ['+', '+', '+']) = true
  · rw [if_pos hd]
    have h1 : ("atUri: ").toList.isPrefixOf
        (("atUri = \"").toList ++ u.toList ++ ['"']) = false := rfl
    have h2 : ("atUri = ").toList.isPrefixOf
        (("atUri = \"").toList ++ u.toList ++ ['"']) = true := rfl
    have h3 : (("atUri = \"").toList ++ u.toList ++ ['"']).drop 8 =
        '"' :: (u.toList ++ ['"']) := rfl
    rw [atUriFn, h1, h2]
    simp only [Bool.false_eq_true, if_false, if_true, h3]
    rw [stripQuotesC_wrap, strMk_toList]
  · rw [if_neg hd]
    have h1 : ("atUri: ").toList.isPrefixOf
        (("atUri: \"").toList ++ u.toList ++ ['"']) = true := rfl
    have h3 : (("atUri: \"").toList ++ u.toList ++ ['"']).drop 7 =
        '"' :: (u.toList ++ ['"']) := rfl
    rw [atUriFn, h1]
    simp only [if_true, h3]
    rw [stripQuotesC_wrap, strMk_toList]

theorem isAtUriKey_line (d : Line) (u : String) :
    isAtUriKey (atUriLineFor d u) = true := by
  rw [atUriLineFor]
  by_cases hd : (d == ['+', '+', '+']) = true
  · rw [if_pos hd]
    rfl
  · rw [if_neg hd]
    rfl

theorem draftFn_line (d : Line) (u : String) :
    draftFn (atUriLineFor d u) = none := by
  rw [atUriLineFor]
  by_cases hd : (d == ['+', '+', '+']) = true
  · rw [if_pos hd]; rfl
  · rw [if_neg hd]; rfl

theorem atUriFn_of_not_key (l : Line) (h : isAtUriKey l = false) :
    atUriFn l = none := by
  rw [isAtUriKey, Bool.or_eq_false_iff] at h
  rw [atUriFn, h.1, h.2]
  rfl

theorem draftFn_of_key (l : Line) (h : isAtUriKey l = true) :
    draftFn l = none := by
  rw [isAtUriKey, Bool.or_eq_true] at h
  rcases h with h | h
  · obtain ⟨r, hr⟩ := List.isPrefixOf_iff_prefix.mp h
    rw [← hr]
    rfl
  · obtain ⟨r, hr⟩ := List.isPrefixOf_iff_prefix.mp h
    rw [← hr]
    rfl

theorem line_ne_delim (d d2 : Line) (u : String) (hd : isDelim d2 = true) :
    (atUriLineFor d u == d2) = false := by
  have hcases : d2 = ['-', '-', '-'] ∨ d2 = ['+', '+', '+'] ∨ d2 = ['*', '*', '*'] := by
    simpa [isDelim, fmDelims] using hd
  rw [atUriLineFor]
  by_cases hdd : (d == ['+', '+', '+']) = true
  · rw [if_pos hdd]
    rcases hcases with h | h | h <;> rw [h] <;> rfl
  · rw [if_neg hdd]
    rcases hcases with h | h | h <;> rw [h] <;> rfl

theorem fmBlock_eq_some (ls : List Line) (d : Line) (block after : List Line)
    (h : fmBlock ls = some (d, block, after)) :
    isDelim d = true ∧ ls = d :: (block ++ d :: after) ∧
      ∀ y ∈ block, (y == d) = false := by
  cases ls with
  | nil => exact Option.noConfusion h
  | cons d0 rest =>
    simp only [fmBlock] at h
    split at h
    · rename_i hdel
      cases hs : splitFirst (fun l => l == d0) rest with
      | none => simp only [hs] at h; exact Option.noConfusion h
      | some v =>
        obtain ⟨b0, a0⟩ := v
        simp only [hs] at h
        injection h with h1
        rw [Prod.mk.injEq] at h1
        obtain ⟨hd0, h2⟩ := h1
        rw [Prod.mk.injEq] at h2
        obtain ⟨hb0, ha0⟩ := h2
        subst hd0; subst hb0; subst ha0
        obtain ⟨⟨x, hx, hshape⟩, hnon⟩ := splitFirst_eq_some _ rest _ _ hs
        have hx' : x = d0 := by simpa using hx
        subst hx'
        exact ⟨hdel, by rw [hshape], hnon⟩
    · exact Option.noConfusion h

theorem fmBlock_update_block (ls : List Line) (uri : String) (d : Line)
    (block after : List Line) (h : fmBlock ls = some (d, block, after)) :
    fmBlock (updateFrontmatterWithAtUri ls uri) =
      some (d,
        (if block.any isAtUriKey then
          block.map (fun l => if isAtUriKey l then atUriLineFor d uri else l)
        else block ++ [atUriLineFor d uri]), after) := by
  obtain ⟨hdel, hshape, hnon⟩ := fmBlock_eq_some ls d block after h
  rw [updateFrontmatterWithAtUri, h]
  simp only [fmBlock, hdel, if_true]
  have hall : ∀ y ∈ (if block.any isAtUriKey then
      block.map (fun l => if isAtUriKey l then atUriLineFor d uri else l)
    else block ++ [atUriLineFor d uri]), (y == d) = false := by
    intro y hy
    split at hy
    · rw [List.mem_map] at hy
      obtain ⟨l, hl, hly⟩ := hy
      by_cases hk : isAtUriKey l = true
      · rw [if_pos hk] at hly
        rw [← hly]
        exact line_ne_delim d d uri hdel
      · rw [if_neg hk] at hly
        rw [← hly]
        exact hnon l hl
    · rcases List.mem_append.mp hy with h1 | h2
      · exact hnon y h1
      · rw [List.mem_singleton] at h2
        rw [h2]
        exact line_ne_delim d d uri hdel
  rw [splitFirst_append _ _ d after hall (by simp)]

theorem fmBlock_update_noblock (ls : List Line) (uri : String)
    (h : fmBlock ls = none) :
    fmBlock (updateFrontmatterWithAtUri ls uri) =
      some (['-', '-', '-'], [atUriLineFor ['-', '-', '-'] uri], ls) := by
  rw [updateFrontmatterWithAtUri, h]
  have hdel : isDelim ['-', '-', '-'] = true := rfl
  simp only [fmBlock, hdel, if_true]
  have hline : (atUriLineFor ['-', '-', '-'] uri == ['-', '-', '-']) = false :=
    line_ne_delim _ _ uri hdel
  have : splitFirst (fun l => l == ['-', '-', '-'])
      (atUriLineFor ['-', '-', '-'] uri :: ['-', '-', '-'] :: ls) =
      some ([atUriLineFor ['-', '-', '-'] uri], ls) := by
    have := splitFirst_append (fun l => l == ['-', '-', '-'])
      [atUriLineFor ['-', '-', '-'] uri] ['-', '-', '-'] ls
      (by intro y hy; rw [List.mem_singleton] at hy; rw [hy]; exact hline)
      (by simp)
    simpa using this
  rw [this]

theorem findSome?_atUri_replaced (uri : String) (d : Line) :
    ∀ (block : List Line), block.any isAtUriKey = true →
      (block.map (fun l => if isAtUriKey l then atUriLineFor d uri else l)).findSome?
        atUriFn = some uri := by
  intro block
  induction block with
  | nil => intro h; simp at h
  | cons l rest ih =>
    intro h
    by_cases hk : isAtUriKey l = true
    · simp only [List.map_cons, if_pos hk, List.findSome?_cons]
      rw [atUriFn_line]
    · rw [List.any_cons, Bool.or_eq_true] at h
      rcases h with h1 | h2
      · exact absurd h1 hk
      · simp only [List.map_cons, if_neg hk, List.findSome?_cons]
        rw [atUriFn_of_not_key l (by simpa using hk)]
        exact ih h2

theorem findSome?_atUri_appended (uri : String) (d : Line) :
    ∀ (block : List Line), block.any isAtUriKey = false →
      (block ++ [atUriLineFor d uri]).findSome? atUriFn = some uri := by
  intro block hany
  rw [List.findSome?_append]
  have hnone : block.findSome? atUriFn = none := by
    rw [List.findSome?_eq_none_iff]
    intro l hl
    rw [List.any_eq_false] at hany
    exact atUriFn_of_not_key l (by simpa using hany l hl)
  rw [hnone]
  simp [List.findSome?_cons, atUriFn_line]

/-- The rewritten document parses back to the inserted remote identity. -/
theorem parseAtUriC_update (ls : List Line) (uri : String) :
    parseAtUriC (updateFrontmatterWithAtUri ls uri) = some uri := by
  cases h : fmBlock ls with
  | some v =>
    obtain ⟨d, block, after⟩ := v
    rw [parseAtUriC_eq, fmBlock_update_block ls uri d block after h]
    by_cases hany : block.any isAtUriKey = true
    · simp only [if_pos hany]
      exact findSome?_atUri_replaced uri d block hany
    · rw [Bool.not_eq_true] at hany
      simp only [hany, Bool.false_eq_true, if_false]
      exact findSome?_atUri_appended uri d block hany
  | none =>
    rw [parseAtUriC_eq, fmBlock_update_noblock ls uri h]
    simp [List.findSome?_cons, atUriFn_line]

theorem findSome?_draft_map (uri : String) (d : Line) :
    ∀ (block : List Line),
      (block.map (fun l => if isAtUriKey l then atUriLineFor d uri else l)).findSome?
        draftFn = block.findSome? draftFn := by
  intro block
  induction block with
  | nil => rfl
  | cons l rest ih =>
    by_cases hk : isAtUriKey l = true
    · simp only [List.map_cons, if_pos hk, List.findSome?_cons]
      rw [draftFn_line, draftFn_of_key l hk]
      exact ih
    · simp only [List.map_cons, if_neg hk, List.findSome?_cons]
      cases hd : draftFn l with
      | none => exact ih
      | some b => rfl

/-- The rewrite leaves the draft flag unchanged. -/
theorem parseDraftC_update (ls : List Line) (uri : String) :
    parseDraftC (updateFrontmatterWithAtUri ls uri) = parseDraftC ls := by
  cases h : fmBlock ls with
  | some v =>
    obtain ⟨d, block, after⟩ := v
    rw [parseDraftC_eq, parseDraftC_eq, fmBlock_update_block ls uri d block after h, h]
    by_cases hany : block.any isAtUriKey = true
    · simp only [if_pos hany]
      rw [findSome?_draft_map]
    · rw [Bool.not_eq_true] at hany
      simp only [hany, Bool.false_eq_true, if_false]
      rw [List.findSome?_append]
      have : ([atUriLineFor d uri] : List Line).findSome? draftFn = none := by
        simp [List.findSome?_cons, draftFn_line]
      rw [this]
      cases hb : block.findSome? draftFn <;> rfl
  | none =>
    rw [parseDraftC_eq, parseDraftC_eq, fmBlock_update_noblock ls uri h, h]
    simp [List.findSome?_cons, draftFn_line]

/-! ### Keyed maps

The state store (a JSON object keyed by relative path) and the content
directory (files keyed by path) are modelled as association lists with
object semantics: assignment overwrites the entry in place or appends a
new one. -/

def lookupA {β : Type} (l : List (String × β)) (k : String) : Option β :=
  (l.find? (fun e => e.1 == k)).map Prod.snd

def hasKeyA {β : Type} (l : List (String × β)) (k : String) : Bool :=
  l.any (fun e => e.1 == k)

def setA {β : Type} (l : List (String × β)) (k : String) (v : β) :
    List (String × β) :=
  if hasKeyA l k then l.map (fun e => if e.1 == k then (k, v) else e)
  else l ++ [(k, v)]

theorem lookupA_cons {β : Type} (x : String × β) (xs : List (String × β)) (k : String) :
    lookupA (x :: xs) k = if (x.1 == k) = true then some x.2 else lookupA xs k := by
  cases hx : x.1 == k with
  | true => simp [lookupA, List.find?, hx]
  | false => simp [lookupA, List.find?, hx]

theorem find?_setA_map {β : Type} (l : List (String × β)) (k k2 : String) (v : β) :
    (l.map (fun e => if e.1 == k then (k, v) else e)).find? (fun e => e.1 == k2) =
      (l.find? (fun e => e.1 == k2)).map (fun e => if e.1 == k then (k, v) else e) := by
  have hfun : ((fun (e : String × β) => e.1 == k2) ∘
      fun e => if e.1 == k then (k, v) else e) =
      (fun (e : String × β) => e.1 == k2) := by
    funext e
    by_cases hx : (e.1 == k) = true
    · have hek : e.1 = k := by simpa using hx
      simp only [Function.comp_apply, if_pos hx]
      show (k == k2) = (e.1 == k2)
      rw [hek]
    · simp only [Function.comp_apply, if_neg hx]
  rw [List.find?_map, hfun]

theorem find?_of_hasKeyA {β : Type} (l : List (String × β)) (k : String)
    (hin : hasKeyA l k = true) :
    ∃ e, l.find? (fun e => e.1 == k) = some e ∧ e.1 = k := by
  cases hf : l.find? (fun e => e.1 == k) with
  | some e =>
    have hek : e.1 = k := by simpa using List.find?_some hf
    exact ⟨e, rfl, hek⟩
  | none =>
    rw [List.find?_eq_none] at hf
    rw [hasKeyA, List.any_eq_true] at hin
    obtain ⟨e, he, hek⟩ := hin
    have hne2 : ¬ (e.1 == k) = true := by simpa using hf e he
    exact absurd hek hne2

theorem lookupA_setA_self {β : Type} (l : List (String × β)) (k : String) (v : β) :
    lookupA (setA l k v) k = some v := by
  rw [setA]
  by_cases hin : hasKeyA l k = true
  · rw [if_pos hin, lookupA, find?_setA_map]
    obtain ⟨e, hf, hek⟩ := find?_of_hasKeyA l k hin
    rw [hf]
    have hx : (e.1 == k) = true := by simpa using hek
    simp only [Option.map_some', if_pos hx]
  · rw [if_neg hin]
    rw [hasKeyA] at hin
    have hall : l.find? (fun e => e.1 == k) = none := by
      rw [List.find?_eq_none]
      intro e he
      rw [List.any_eq_true] at hin
      intro hek
      exact hin ⟨e, he, hek⟩
    rw [lookupA, List.find?_append, hall]
    simp [List.find?_cons_of_pos]

theorem lookupA_setA_ne {β : Type} (l : List (String × β)) (k k2 : String) (v : β)
    (hne : k2 ≠ k) : lookupA (setA l k v) k2 = lookupA l k2 := by
  rw [setA]
  by_cases hin : hasKeyA l k = true
  · rw [if_pos hin, lookupA, find?_setA_map, lookupA]
    cases hf : l.find? (fun e => e.1 == k2) with
    | none => rfl
    | some e =>
      have hek2 : e.1 = k2 := by simpa using List.find?_some hf
      have hx : (e.1 == k) = false := by
        simp only [beq_eq_false_iff_ne, ne_eq]
        rw [hek2]
        exact hne
      simp only [Option.map_some', hx, Bool.false_eq_true, if_false]
  · rw [if_neg hin]
    rw [lookupA, lookupA, List.find?_append]
    cases hf : l.find? (fun e => e.1 == k2) with
    | some e => rfl
    | none =>
      simp only [Option.none_or]
      have hkv : ((((k, v) : String × β)).1 == k2) = false := by
        simp only [beq_eq_false_iff_ne, ne_eq]
        exact fun h => hne h.symm
      rw [List.find?_cons_of_neg _ (by simp [hkv])]
      rfl

theorem keys_setA_mem {β : Type} (l : List (String × β)) (k : String) (v : β)
    (hin : hasKeyA l k = true) :
    (setA l k v).map Prod.fst = l.map Prod.fst := by
  rw [setA, if_pos hin, List.map_map]
  apply List.map_congr_left
  intro e _
  by_cases hx : (e.1 == k) = true
  · have hek : e.1 = k := by simpa using hx
    simp only [Function.comp_apply, if_pos hx]
    exact hek.symm
  · simp only [Function.comp_apply, if_neg hx]

theorem mem_setA {β : Type} (l : List (String × β)) (k : String) (v : β)
    (e : String × β) (he : e ∈ setA l k v) : e = (k, v) ∨ e ∈ l := by
  rw [setA] at he
  split at he
  · rw [List.mem_map] at he
    obtain ⟨x, hx, hxe⟩ := he
    by_cases hk : (x.1 == k) = true
    · rw [if_pos hk] at hxe
      exact Or.inl hxe.symm
    · rw [if_neg hk] at hxe
      exact Or.inr (hxe ▸ hx)
  · rcases List.mem_append.mp he with h1 | h2
    · exact Or.inr h1
    · rw [List.mem_singleton] at h2
      exact Or.inl h2

theorem lookupA_mem {β : Type} (l : List (String × β)) (k : String) (v : β)
    (h : lookupA l k = some v) : (k, v) ∈ l := by
  rw [lookupA, Option.map_eq_some'] at h
  obtain ⟨e, he, hev⟩ := h
  have hmem := List.mem_of_find?_eq_some he
  have hpred := List.find?_some he
  have hk : e.1 = k := by simpa using hpred
  have : e = (k, v) := by
    cases e
    simp only at hk hev
    rw [hk, hev]
  exact this ▸ hmem

theorem lookupA_of_mem_nodup {β : Type} (l : List (String × β)) (k : String) (v : β)
    (hnd : (l.map Prod.fst).Nodup) (hmem : (k, v) ∈ l) : lookupA l k = some v := by
  induction l with
  | nil => simp at hmem
  | cons x xs ih =>
    rw [List.map_cons, List.nodup_cons] at hnd
    rcases List.mem_cons.mp hmem with h1 | h2
    · rw [← h1]
      simp [lookupA, List.find?_cons]
    · have hx : (x.1 == k) = false := by
        simp only [beq_eq_false_iff_ne, ne_eq]
        intro h
        exact hnd.1 (h ▸ List.mem_map_of_mem Prod.fst h2)
      rw [lookupA, List.find?_cons, hx]
      exact ih hnd.2 h2

theorem find?_key_of_mem_nodup {α : Type} (key : α → String) (l : List α) (x : α)
    (hnd : (l.map key).Nodup) (hmem : x ∈ l) :
    l.find? (fun y => key y == key x) = some x := by
  induction l with
  | nil => simp at hmem
  | cons a as ih =>
    rw [List.map_cons, List.nodup_cons] at hnd
    rcases List.mem_cons.mp hmem with h1 | h2
    · rw [h1]
      simp [List.find?_cons]
    · have ha : (key a == key x) = false := by
        simp only [beq_eq_false_iff_ne, ne_eq]
        intro h
        exact hnd.1 (h ▸ List.mem_map_of_mem key h2)
      rw [List.find?_cons, ha]
      exact ih hnd.2 h2

theorem mem_foldl_filter {α β : Type} (p : β → α → Bool) (l : List β)
    (init : List α) (x : α)
    (h : x ∈ l.foldl (fun acc d => acc.filter (p d)) init) :
    x ∈ init ∧ ∀ d ∈ l, p d x = true := by
  induction l generalizing init with
  | nil => exact ⟨h, by intro d hd; simp at hd⟩
  | cons d ds ih =>
    rw [List.foldl_cons] at h
    obtain ⟨hmem, hall⟩ := ih (init.filter (p d)) h
    rw [List.mem_filter] at hmem
    refine ⟨hmem.1, ?_⟩
    intro d2 hd2
    rcases List.mem_cons.mp hd2 with h1 | h2
    · exact h1 ▸ hmem.2
    · exact hall d2 h2

theorem lookupA_filter_ne {β : Type} (init : List (String × β)) (k dk : String)
    (hne : dk ≠ k) :
    lookupA (init.filter (fun en => en.1 != dk)) k = lookupA init k := by
  induction init with
  | nil => rfl
  | cons x xs ih =>
    rw [List.filter_cons]
    by_cases hx : (x.1 != dk) = true
    · rw [if_pos hx, lookupA_cons, lookupA_cons]
      by_cases hxk : (x.1 == k) = true
      · rw [if_pos hxk, if_pos hxk]
      · rw [if_neg hxk, if_neg hxk]
        exact ih
    · rw [if_neg hx]
      have hxd : x.1 = dk := by simpa using hx
      have hxk : (x.1 == k) = false := by
        simp only [beq_eq_false_iff_ne, ne_eq]
        rw [hxd]
        exact hne
      rw [lookupA_cons, if_neg (by simp [hxk])]
      exact ih

theorem lookupA_foldl_filter_keys {β : Type} (dels : List (String × String))
    (init : List (String × β)) (k : String)
    (hk : ∀ d ∈ dels, d.1 ≠ k) :
    lookupA (dels.foldl (fun st e => st.filter (fun en => en.1 != e.1)) init) k =
      lookupA init k := by
  induction dels generalizing init with
  | nil => rfl
  | cons d ds ih =>
    rw [List.foldl_cons]
    rw [ih _ (fun d2 hd2 => hk d2 (by simp [hd2]))]
    exact lookupA_filter_ne init k d.1 (hk d (by simp))

/-! ### The reconciliation run

The pipeline of publish.ts (and publish-lite.ts): scan, local diff,
deletion diff, remote diff, primary write pass, deletion pass.  The
remote store, record creation and the content fingerprint are external
collaborators, abstracted as parameters; the note passes (secondary
records) do not touch the files, the state or the primary records and
are omitted from the world. -/

/-- A scanned document of the run model. -/
structure ScanPost where
  filePath : String
  slug : String
  atUri : Option String
  draft : Bool
  raw : List Line
  deriving Repr, DecidableEq

/-- A primary record of the remote listing: its identity, its derived
path and its title. -/
structure RemoteDoc where
  uri : String
  path : String
  title : String
  deriving Repr, DecidableEq

/-- The state a run acts on: the content directory, the state store and
the remote listing. -/
structure World where
  files : List (String × List Line)
  state : List (String × PostState)
  remote : List RemoteDoc
  deriving Repr

/-- The external collaborators of a run: the content fingerprint over a
document's lines, the slug derivation, the identity returned by record
creation, the record title, the scan exclusion patterns and the path
namespace of the publication. -/
structure RunParams where
  hash : List Line → String
  slugOf : String → String
  newUri : String → String
  titleOf : String → String
  ignored : String → Bool
  pathPre : String

/-- Scan phase: parse each non-excluded file. -/
def mkScanPost (P : RunParams) (f : String × List Line) : ScanPost :=
  { filePath := f.1, slug := P.slugOf f.1, atUri := parseAtUriC f.2,
    draft := parseDraftC f.2, raw := f.2 }

def scanPosts (P : RunParams) (files : List (String × List Line)) : List ScanPost :=
  (files.filter (fun f => !P.ignored f.1)).map (mkScanPost P)

/-- The action chosen for a queued document: create, or update at its
frontmatter identity. -/
inductive RunAction
  | create
  | update (uri : String)
  deriving Repr, DecidableEq

def runActionOf (p : ScanPost) : RunAction :=
  if strSet p.atUri then RunAction.update (p.atUri.getD "") else RunAction.create

/-- Local diff: drafts are skipped, the forced flag queues everything,
an absent state entry or a changed fingerprint queues the document,
a matching fingerprint skips it. -/
def classifyScan (P : RunParams) (force : Bool)
    (state : List (String × PostState)) (posts : List ScanPost) :
    List (ScanPost × RunAction) :=
  posts.filterMap (fun p =>
    if p.draft then none
    else if force then some (p, runActionOf p)
    else
      match lookupA state p.filePath with
      | none => some (p, runActionOf p)
      | some ps => if ps.contentHash != P.hash p.raw then some (p, runActionOf p)
        else none)

/-- Deletion diff: state entries with a truthy identity whose path is
neither scanned nor present on disk. -/
def deletedEntriesOf (files : List (String × List Line)) (posts : List ScanPost)
    (state : List (String × PostState)) : List (String × String) :=
  state.filterMap (fun e =>
    if posts.any (fun p => p.filePath == e.1) then none
    else if !strSet e.2.atUri then none
    else if files.any (fun f => f.1 == e.1) then none
    else some (e.1, e.2.atUri.getD ""))

/-- Remote diff: remote records whose derived path matches no scanned
document and whose identity is not already covered by the deletion
diff. -/
def unmatchedOf (P : RunParams) (posts : List ScanPost)
    (deleted : List (String × String)) (remote : List RemoteDoc) :
    List RemoteDoc :=
  remote.filter (fun d =>
    !(posts.any (fun p => P.pathPre ++ "/" ++ p.slug == d.path)) &&
      !(deleted.any (fun e => e.2 == d.uri)))

/-- Modelled from the spec: the remote effect of createDocument and
updateDocument (not in the snapshot) — the written record carries the
document's derived path; putRecord upserts at the identity. -/
def upsertDoc (remote : List RemoteDoc) (uri path title : String) :
    List RemoteDoc :=
  if remote.any (fun d => d.uri == uri) then
    remote.map (fun d =>
      if d.uri == uri then { uri := uri, path := path, title := title } else d)
  else remote ++ [{ uri := uri, path := path, title := title }]

/-- Primary write pass for one plan entry.  On create: a fresh identity,
the frontmatter rewritten in place on disk, and the state entry's hash
computed over the rewritten content.  On update: the file untouched and
the state entry's hash computed over the scanned raw content.  Either
way the remote record is written with the derived path and the state
entry records identity and slug. -/
def applyPlanEntry (P : RunParams) (w : World) (e : ScanPost × RunAction) :
    World :=
  match e.2 with
  | RunAction.create =>
    let uri := P.newUri e.1.filePath
    let newLines := updateFrontmatterWithAtUri e.1.raw uri
    { files := setA w.files e.1.filePath newLines,
      state := setA w.state e.1.filePath
        { contentHash := P.hash newLines, atUri := some uri,
          lastPublished := "", slug := e.1.slug },
      remote := upsertDoc w.remote uri (P.pathPre ++ "/" ++ e.1.slug)
        (P.titleOf e.1.filePath) }
  | RunAction.update uri =>
    { files := w.files,
      state := setA w.state e.1.filePath
        { contentHash := P.hash e.1.raw, atUri := some uri,
          lastPublished := "", slug := e.1.slug },
      remote := upsertDoc w.remote uri (P.pathPre ++ "/" ++ e.1.slug)
        (P.titleOf e.1.filePath) }

/-- Deletion pass: delete the remote record of every deletion-diff entry
and drop the state entry. -/
def applyDeletions (w : World) (deleted : List (String × String)) : World :=
  { files := w.files,
    state := deleted.foldl (fun st e => st.filter (fun en => en.1 != e.1)) w.state,
    remote := deleted.foldl (fun r e => r.filter (fun d => d.uri != e.2)) w.remote }

structure RunResult where
  plan : List (ScanPost × RunAction)
  deleted : List (String × String)
  unmatched : List RemoteDoc
  world : World

/-- One full reconciliation run over a world, with every remote
operation succeeding. -/
def runPublish (P : RunParams) (force : Bool) (w : World) : RunResult :=
  let posts := scanPosts P w.files
  let plan := classifyScan P force w.state posts
  let deleted := deletedEntriesOf w.files posts w.state
  let unmatched := unmatchedOf P posts deleted w.remote
  let w1 := plan.foldl (applyPlanEntry P) w
  let w2 := applyDeletions w1 deleted
  let remote3 :=
    w2.remote.filter (fun d => !(unmatched.any (fun m => m.uri == d.uri)))
  { plan := plan, deleted := deleted, unmatched := unmatched,
    world := { files := w2.files, state := w2.state, remote := remote3 } }

/-! ### Characterizing the write pass -/

def planKey (e : ScanPost × RunAction) : String := e.1.filePath

/-- The state entry the write pass stores for a plan entry. -/
def entryFor (P : RunParams) (e : ScanPost × RunAction) : PostState :=
  match e.2 with
  | RunAction.create =>
    { contentHash := P.hash (updateFrontmatterWithAtUri e.1.raw (P.newUri e.1.filePath)),
      atUri := some (P.newUri e.1.filePath), lastPublished := "", slug := e.1.slug }
  | RunAction.update uri =>
    { contentHash := P.hash e.1.raw, atUri := some uri,
      lastPublished := "", slug := e.1.slug }

/-- The identity the write pass writes at for a plan entry. -/
def uriFor (P : RunParams) (e : ScanPost × RunAction) : String :=
  match e.2 with
  | RunAction.create => P.newUri e.1.filePath
  | RunAction.update uri => uri

/-- The remote record the write pass leaves for a plan entry. -/
def docFor (P : RunParams) (e : ScanPost × RunAction) : RemoteDoc :=
  { uri := uriFor P e, path := P.pathPre ++ "/" ++ e.1.slug,
    title := P.titleOf e.1.filePath }

/-- The file rewrite the write pass performs for a plan entry, when any. -/
def linesFor (P : RunParams) (e : ScanPost × RunAction) : Option (List Line) :=
  match e.2 with
  | RunAction.create =>
    some (updateFrontmatterWithAtUri e.1.raw (P.newUri e.1.filePath))
  | RunAction.update _ => none

theorem applyPlanEntry_state (P : RunParams) (w : World) (e : ScanPost × RunAction) :
    (applyPlanEntry P w e).state = setA w.state (planKey e) (entryFor P e) := by
  cases he : e.2 with
  | create => simp [applyPlanEntry, he, planKey, entryFor]
  | update uri => simp [applyPlanEntry, he, planKey, entryFor]

theorem applyPlanEntry_files (P : RunParams) (w : World) (e : ScanPost × RunAction) :
    (applyPlanEntry P w e).files = match linesFor P e with
      | some nl => setA w.files (planKey e) nl
      | none => w.files := by
  cases he : e.2 with
  | create => simp [applyPlanEntry, he, planKey, linesFor]
  | update uri => simp [applyPlanEntry, he, linesFor]

theorem applyPlanEntry_remote (P : RunParams) (w : World) (e : ScanPost × RunAction) :
    (applyPlanEntry P w e).remote =
      upsertDoc w.remote (uriFor P e) (P.pathPre ++ "/" ++ e.1.slug)
        (P.titleOf e.1.filePath) := by
  cases he : e.2 with
  | create => simp [applyPlanEntry, he, uriFor]
  | update uri => simp [applyPlanEntry, he, uriFor]

theorem foldl_state_lookup_notfound (P : RunParams) :
    ∀ (plan : List (ScanPost × RunAction)) (w : World) (k : String),
      plan.find? (fun x => planKey x == k) = none →
      lookupA (plan.foldl (applyPlanEntry P) w).state k = lookupA w.state k := by
  intro plan
  induction plan with
  | nil => intro w k _; rfl
  | cons e rest ih =>
    intro w k hfind
    rw [List.find?_eq_none] at hfind
    have hke : ¬ (planKey e == k) = true := hfind e (by simp)
    rw [List.foldl_cons]
    rw [ih (applyPlanEntry P w e) k ?_]
    · rw [applyPlanEntry_state, lookupA_setA_ne]
      intro hc
      exact hke (by simp [hc])
    · rw [List.find?_eq_none]
      intro x hx
      exact hfind x (by simp [hx])

theorem foldl_state_lookup_found (P : RunParams) :
    ∀ (plan : List (ScanPost × RunAction)) (w : World) (k : String)
      (e : ScanPost × RunAction),
      (plan.map planKey).Nodup →
      plan.find? (fun x => planKey x == k) = some e →
      lookupA (plan.foldl (applyPlanEntry P) w).state k = some (entryFor P e) := by
  intro plan
  induction plan with
  | nil => intro w k e _ hfind; exact Option.noConfusion hfind
  | cons e0 rest ih =>
    intro w k e hnd hfind
    rw [List.map_cons, List.nodup_cons] at hnd
    rw [List.foldl_cons]
    by_cases hk : (planKey e0 == k) = true
    · have hkk : planKey e0 = k := by simpa using hk
      rw [find?_cons_pos (fun x => planKey x == k) e0 rest hk] at hfind
      injection hfind with hfe
      subst hfe
      rw [foldl_state_lookup_notfound P rest (applyPlanEntry P w e0) k ?_]
      · rw [applyPlanEntry_state, ← hkk, lookupA_setA_self]
      · rw [List.find?_eq_none]
        intro x hx
        simp only [Bool.not_eq_true, beq_eq_false_iff_ne, ne_eq]
        intro hc
        exact hnd.1 (hkk ▸ hc ▸ List.mem_map_of_mem planKey hx)
    · rw [find?_cons_neg (fun x => planKey x == k) e0 rest (by simpa using hk)] at hfind
      exact ih (applyPlanEntry P w e0) k e hnd.2 hfind

theorem foldl_files_lookup_notfound (P : RunParams) :
    ∀ (plan : List (ScanPost × RunAction)) (w : World) (k : String),
      plan.find? (fun x => planKey x == k) = none →
      lookupA (plan.foldl (applyPlanEntry P) w).files k = lookupA w.files k := by
  intro plan
  induction plan with
  | nil => intro w k _; rfl
  | cons e rest ih =>
    intro w k hfind
    rw [List.find?_eq_none] at hfind
    have hke : ¬ (planKey e == k) = true := hfind e (by simp)
    rw [List.foldl_cons]
    rw [ih (applyPlanEntry P w e) k ?_]
    · cases hl : linesFor P e with
      | some nl =>
        have hfe : (applyPlanEntry P w e).files = setA w.files (planKey e) nl := by
          rw [applyPlanEntry_files, hl]
        rw [hfe, lookupA_setA_ne]
        intro hc
        exact hke (by simp [hc])
      | none =>
        have hfe : (applyPlanEntry P w e).files = w.files := by
          rw [applyPlanEntry_files, hl]
        rw [hfe]
    · rw [List.find?_eq_none]
      intro x hx
      exact hfind x (by simp [hx])

theorem foldl_files_lookup_found (P : RunParams) :
    ∀ (plan : List (ScanPost × RunAction)) (w : World) (k : String)
      (e : ScanPost × RunAction),
      (plan.map planKey).Nodup →
      plan.find? (fun x => planKey x == k) = some e →
      lookupA (plan.foldl (applyPlanEntry P) w).files k =
        (match linesFor P e with
          | some nl => some nl
          | none => lookupA w.files k) := by
  intro plan
  induction plan with
  | nil => intro w k e _ hfind; exact Option.noConfusion hfind
  | cons e0 rest ih =>
    intro w k e hnd hfind
    rw [List.map_cons, List.nodup_cons] at hnd
    rw [List.foldl_cons]
    by_cases hk : (planKey e0 == k) = true
    · have hkk : planKey e0 = k := by simpa using hk
      rw [find?_cons_pos (fun x => planKey x == k) e0 rest hk] at hfind
      injection hfind with hfe
      subst hfe
      rw [foldl_files_lookup_notfound P rest (applyPlanEntry P w e0) k ?_]
      · cases hl : linesFor P e0 with
        | some nl =>
          have hfe2 : (applyPlanEntry P w e0).files = setA w.files (planKey e0) nl := by
            rw [applyPlanEntry_files, hl]
          rw [hfe2, ← hkk, lookupA_setA_self]
        | none =>
          have hfe2 : (applyPlanEntry P w e0).files = w.files := by
            rw [applyPlanEntry_files, hl]
          rw [hfe2]
      · rw [List.find?_eq_none]
        intro x hx
        simp only [Bool.not_eq_true, beq_eq_false_iff_ne, ne_eq]
        intro hc
        exact hnd.1 (hkk ▸ hc ▸ List.mem_map_of_mem planKey hx)
    · rw [find?_cons_neg (fun x => planKey x == k) e0 rest (by simpa using hk)] at hfind
      have ihh := ih (applyPlanEntry P w e0) k e hnd.2 hfind
      rw [ihh]
      have hke : (planKey e0 == k) = false := by simpa using hk
      cases hl : linesFor P e with
      | some nl => simp only
      | none =>
        simp only
        cases hl0 : linesFor P e0 with
        | some nl0 =>
          have hfe2 : (applyPlanEntry P w e0).files = setA w.files (planKey e0) nl0 := by
            rw [applyPlanEntry_files, hl0]
          rw [hfe2, lookupA_setA_ne]
          intro hc
          rw [hc] at hke
          simp at hke
        | none =>
          have hfe2 : (applyPlanEntry P w e0).files = w.files := by
            rw [applyPlanEntry_files, hl0]
          rw [hfe2]

theorem hasKeyA_map_fst {β : Type} (l : List (String × β)) (k : String) :
    hasKeyA l k = (l.map Prod.fst).any (fun x => x == k) := by
  induction l with
  | nil => rfl
  | cons x xs ih =>
    rw [hasKeyA, List.any_cons, List.map_cons, List.any_cons, ← hasKeyA, ih]

theorem foldl_files_keys (P : RunParams) :
    ∀ (plan : List (ScanPost × RunAction)) (w : World),
      (∀ e ∈ plan, hasKeyA w.files (planKey e) = true) →
      (plan.foldl (applyPlanEntry P) w).files.map Prod.fst = w.files.map Prod.fst := by
  intro plan
  induction plan with
  | nil => intro w _; rfl
  | cons e rest ih =>
    intro w hall
    rw [List.foldl_cons]
    have hstep : (applyPlanEntry P w e).files.map Prod.fst = w.files.map Prod.fst := by
      rw [applyPlanEntry_files]
      cases hl : linesFor P e with
      | some nl =>
        simp only
        exact keys_setA_mem w.files (planKey e) nl (hall e (by simp))
      | none => rfl
    rw [ih (applyPlanEntry P w e) ?_, hstep]
    intro e2 he2
    rw [hasKeyA_map_fst, hstep, ← hasKeyA_map_fst]
    exact hall e2 (by simp [he2])

theorem foldl_state_members (P : RunParams) :
    ∀ (plan : List (ScanPost × RunAction)) (w : World) (en : String × PostState),
      en ∈ (plan.foldl (applyPlanEntry P) w).state →
      (∃ pe ∈ plan, en = (planKey pe, entryFor P pe)) ∨ en ∈ w.state := by
  intro plan
  induction plan with
  | nil => intro w en h; exact Or.inr h
  | cons e rest ih =>
    intro w en h
    rw [List.foldl_cons] at h
    rcases ih (applyPlanEntry P w e) en h with ⟨pe, hpe, hen⟩ | hmem
    · exact Or.inl ⟨pe, by simp [hpe], hen⟩
    · rw [applyPlanEntry_state] at hmem
      rcases mem_setA _ _ _ en hmem with h1 | h2
      · exact Or.inl ⟨e, by simp, h1⟩
      · exact Or.inr h2

theorem mem_upsertDoc (remote : List RemoteDoc) (uri path title : String)
    (d : RemoteDoc) (h : d ∈ upsertDoc remote uri path title) :
    d = { uri := uri, path := path, title := title } ∨ d ∈ remote := by
  rw [upsertDoc] at h
  split at h
  · rw [List.mem_map] at h
    obtain ⟨x, hx, hxd⟩ := h
    by_cases hu : (x.uri == uri) = true
    · rw [if_pos hu] at hxd
      exact Or.inl hxd.symm
    · rw [if_neg hu] at hxd
      exact Or.inr (hxd ▸ hx)
  · rcases List.mem_append.mp h with h1 | h2
    · exact Or.inr h1
    · rw [List.mem_singleton] at h2
      exact Or.inl h2

theorem foldl_remote_members (P : RunParams) :
    ∀ (plan : List (ScanPost × RunAction)) (w : World) (d : RemoteDoc),
      d ∈ (plan.foldl (applyPlanEntry P) w).remote →
      (∃ pe ∈ plan, d = docFor P pe) ∨ d ∈ w.remote := by
  intro plan
  induction plan with
  | nil => intro w d h; exact Or.inr h
  | cons e rest ih =>
    intro w d h
    rw [List.foldl_cons] at h
    rcases ih (applyPlanEntry P w e) d h with ⟨pe, hpe, hd⟩ | hmem
    · exact Or.inl ⟨pe, by simp [hpe], hd⟩
    · rw [applyPlanEntry_remote] at hmem
      rcases mem_upsertDoc _ _ _ _ d hmem with h1 | h2
      · exact Or.inl ⟨e, by simp, by rw [h1]; rfl⟩
      · exact Or.inr h2

/-! ### Facts about the scan and the local diff -/

/-- The per-document classification function of classifyScan. -/
def classifyFn (P : RunParams) (force : Bool)
    (state : List (String × PostState)) (p : ScanPost) :
    Option (ScanPost × RunAction) :=
  if p.draft then none
  else if force then some (p, runActionOf p)
  else
    match lookupA state p.filePath with
    | none => some (p, runActionOf p)
    | some ps => if ps.contentHash != P.hash p.raw then some (p, runActionOf p)
      else none

theorem classifyScan_eq_filterMap (P : RunParams) (force : Bool)
    (state : List (String × PostState)) (posts : List ScanPost) :
    classifyScan P force state posts = posts.filterMap (classifyFn P force state) :=
  rfl

theorem classifyFn_some (P : RunParams) (force : Bool)
    (state : List (String × PostState)) (p : ScanPost)
    (e : ScanPost × RunAction) (h : classifyFn P force state p = some e) :
    e.1 = p ∧ p.draft = false := by
  rw [classifyFn] at h
  by_cases hdr : p.draft = true
  · rw [if_pos hdr] at h
    exact Option.noConfusion h
  · rw [if_neg hdr] at h
    refine ⟨?_, by simpa using hdr⟩
    by_cases hf : force = true
    · rw [if_pos hf] at h
      injection h with he
      rw [← he]
    · rw [if_neg hf] at h
      cases hl : lookupA state p.filePath with
      | none =>
        simp only [hl] at h
        injection h with he
        rw [← he]
      | some ps =>
        simp only [hl] at h
        by_cases hb : (ps.contentHash != P.hash p.raw) = true
        · rw [if_pos hb] at h
          injection h with he
          rw [← he]
        · rw [if_neg hb] at h
          exact Option.noConfusion h

theorem classifyFn_none_skip (P : RunParams)
    (state : List (String × PostState)) (p : ScanPost)
    (h : classifyFn P false state p = none) :
    p.draft = true ∨ ∃ ps, lookupA state p.filePath = some ps ∧
      ps.contentHash = P.hash p.raw := by
  rw [classifyFn] at h
  by_cases hdr : p.draft = true
  · exact Or.inl hdr
  · rw [if_neg hdr] at h
    simp only [Bool.false_eq_true, if_false] at h
    cases hl : lookupA state p.filePath with
    | none =>
      simp only [hl] at h
      exact Option.noConfusion h
    | some ps =>
      simp only [hl] at h
      by_cases hb : (ps.contentHash != P.hash p.raw) = true
      · rw [if_pos hb] at h
        exact Option.noConfusion h
      · refine Or.inr ⟨ps, rfl, ?_⟩
        simpa using hb

theorem classifyFn_skip_none (P : RunParams)
    (state : List (String × PostState)) (p : ScanPost) (ps : PostState)
    (hdr : p.draft = false) (hl : lookupA state p.filePath = some ps)
    (hh : ps.contentHash = P.hash p.raw) :
    classifyFn P false state p = none := by
  rw [classifyFn, if_neg (by simp [hdr])]
  simp only [Bool.false_eq_true, if_false, hl]
  rw [if_neg]
  simp [hh]

theorem classifyFn_draft_none (P : RunParams) (force : Bool)
    (state : List (String × PostState)) (p : ScanPost)
    (hdr : p.draft = true) : classifyFn P force state p = none := by
  rw [classifyFn, if_pos hdr]

theorem classifyScan_keys_sublist (P : RunParams) (force : Bool)
    (state : List (String × PostState)) :
    ∀ (posts : List ScanPost),
      ((classifyScan P force state posts).map planKey).Sublist
        (posts.map (fun p => p.filePath)) := by
  intro posts
  induction posts with
  | nil => simp [classifyScan_eq_filterMap]
  | cons p rest ih =>
    rw [classifyScan_eq_filterMap] at ih ⊢
    rw [List.filterMap_cons, List.map_cons]
    cases hc : classifyFn P force state p with
    | none => exact ih.cons p.filePath
    | some e =>
      have hfst := (classifyFn_some P force state p e hc).1
      rw [List.map_cons]
      have : planKey e = p.filePath := by rw [planKey, hfst]
      rw [this]
      exact ih.cons₂ p.filePath

theorem mem_classifyScan (P : RunParams) (force : Bool)
    (state : List (String × PostState)) (posts : List ScanPost)
    (e : ScanPost × RunAction) (h : e ∈ classifyScan P force state posts) :
    e.1 ∈ posts ∧ e.1.draft = false ∧ classifyFn P force state e.1 = some e := by
  rw [classifyScan_eq_filterMap, List.mem_filterMap] at h
  obtain ⟨p, hp, hc⟩ := h
  obtain ⟨hfst, hdr⟩ := classifyFn_some P force state p e hc
  subst hfst
  exact ⟨hp, hdr, hc⟩

theorem scanPosts_map_filePath (P : RunParams) (files : List (String × List Line)) :
    (scanPosts P files).map (fun p => p.filePath) =
      (files.filter (fun f => !P.ignored f.1)).map Prod.fst := by
  rw [scanPosts, List.map_map]
  rfl

theorem scanPosts_map_slug (P : RunParams) (files : List (String × List Line)) :
    (scanPosts P files).map (fun p => p.slug) =
      ((files.filter (fun f => !P.ignored f.1)).map Prod.fst).map P.slugOf := by
  rw [scanPosts, List.map_map, List.map_map]
  rfl

theorem map_fst_filter_pred {β : Type} (q : String → Bool) :
    ∀ (l : List (String × β)),
      (l.filter (fun f => q f.1)).map Prod.fst = (l.map Prod.fst).filter q := by
  intro l
  induction l with
  | nil => rfl
  | cons x xs ih =>
    rw [List.filter_cons, List.map_cons, List.filter_cons]
    by_cases hx : q x.1 = true
    · rw [if_pos hx, if_pos hx, List.map_cons, ih]
    · rw [if_neg hx, if_neg hx, ih]

theorem any_comp_map {α : Type} (f : α → String) (pred : String → Bool) :
    ∀ (l : List α), l.any (fun x => pred (f x)) = (l.map f).any pred := by
  intro l
  induction l with
  | nil => rfl
  | cons x xs ih =>
    rw [List.any_cons, List.map_cons, List.any_cons, ih]

theorem any_eq_of_map_eq {α₁ α₂ : Type} (f : α₁ → String) (g : α₂ → String)
    (l₁ : List α₁) (l₂ : List α₂) (h : l₁.map f = l₂.map g)
    (pred : String → Bool) :
    l₁.any (fun x => pred (f x)) = l₂.any (fun x => pred (g x)) := by
  rw [any_comp_map f pred l₁, any_comp_map g pred l₂, h]

theorem mem_scanPosts_intro (P : RunParams) (files : List (String × List Line))
    (f : String × List Line) (hf : f ∈ files) (hig : P.ignored f.1 = false) :
    mkScanPost P f ∈ scanPosts P files := by
  rw [scanPosts]
  exact List.mem_map_of_mem _ (List.mem_filter.mpr ⟨hf, by simp [hig]⟩)

theorem mem_scanPosts_elim (P : RunParams) (files : List (String × List Line))
    (p : ScanPost) (h : p ∈ scanPosts P files) :
    ∃ f, f ∈ files ∧ P.ignored f.1 = false ∧ p = mkScanPost P f := by
  rw [scanPosts, List.mem_map] at h
  obtain ⟨f, hf, hfp⟩ := h
  rw [List.mem_filter] at hf
  exact ⟨f, hf.1, by simpa using hf.2, hfp.symm⟩

theorem exists_entry_of_any {β : Type} (l : List (String × β)) (k : String)
    (h : l.any (fun e => e.1 == k) = true) : ∃ v, (k, v) ∈ l := by
  rw [List.any_eq_true] at h
  obtain ⟨e, he, hek⟩ := h
  have : e.1 = k := by simpa using hek
  exact ⟨e.2, by rw [← this]; exact he⟩

theorem mem_deletedEntriesOf (files : List (String × List Line))
    (posts : List ScanPost) (st : List (String × PostState))
    (d : String × String) (h : d ∈ deletedEntriesOf files posts st) :
    ∃ en, en ∈ st ∧ d = (en.1, en.2.atUri.getD "") ∧
      posts.any (fun p => p.filePath == en.1) = false ∧
      strSet en.2.atUri = true ∧
      files.any (fun f => f.1 == en.1) = false := by
  rw [deletedEntriesOf, List.mem_filterMap] at h
  obtain ⟨en, hen, hsome⟩ := h
  refine ⟨en, hen, ?_⟩
  by_cases h1 : posts.any (fun p => p.filePath == en.1) = true
  · rw [if_pos h1] at hsome
    exact Option.noConfusion hsome
  · rw [if_neg h1] at hsome
    by_cases h2 : strSet en.2.atUri = true
    · rw [if_neg (by simp [h2])] at hsome
      by_cases h3 : files.any (fun f => f.1 == en.1) = true
      · rw [if_pos h3] at hsome
        exact Option.noConfusion hsome
      · rw [if_neg h3] at hsome
        injection hsome with hd
        have h1f : posts.any (fun p => p.filePath == en.1) = false := by
          revert h1
          cases posts.any (fun p => p.filePath == en.1) <;> simp
        have h3f : files.any (fun f => f.1 == en.1) = false := by
          revert h3
          cases files.any (fun f => f.1 == en.1) <;> simp
        exact ⟨hd.symm, h1f, h2, h3f⟩
    · rw [if_pos (by simpa using h2)] at hsome
      exact Option.noConfusion hsome

theorem deletedEntriesOf_intro (files : List (String × List Line))
    (posts : List ScanPost) (st : List (String × PostState))
    (en : String × PostState) (hen : en ∈ st)
    (h1 : posts.any (fun p => p.filePath == en.1) = false)
    (h2 : strSet en.2.atUri = true)
    (h3 : files.any (fun f => f.1 == en.1) = false) :
    (en.1, en.2.atUri.getD "") ∈ deletedEntriesOf files posts st := by
  rw [deletedEntriesOf, List.mem_filterMap]
  refine ⟨en, hen, ?_⟩
  rw [if_neg (by rw [h1]; simp), if_neg (by rw [h2]; simp), if_neg (by rw [h3]; simp)]

theorem mem_unmatchedOf (P : RunParams) (posts : List ScanPost)
    (deleted : List (String × String)) (remote : List RemoteDoc)
    (d : RemoteDoc) (h : d ∈ unmatchedOf P posts deleted remote) :
    d ∈ remote ∧
      posts.any (fun p => P.pathPre ++ "/" ++ p.slug == d.path) = false ∧
      deleted.any (fun e => e.2 == d.uri) = false := by
  rw [unmatchedOf, List.mem_filter] at h
  obtain ⟨hmem, hpred⟩ := h
  rw [Bool.and_eq_true] at hpred
  exact ⟨hmem, by simpa using hpred.1, by simpa using hpred.2⟩

theorem unmatchedOf_intro (P : RunParams) (posts : List ScanPost)
    (deleted : List (String × String)) (remote : List RemoteDoc)
    (d : RemoteDoc) (hmem : d ∈ remote)
    (h1 : posts.any (fun p => P.pathPre ++ "/" ++ p.slug == d.path) = false)
    (h2 : deleted.any (fun e => e.2 == d.uri) = false) :
    d ∈ unmatchedOf P posts deleted remote := by
  rw [unmatchedOf, List.mem_filter]
  exact ⟨hmem, by simp [h1, h2]⟩

/-! ### The idempotence theorem -/

theorem mkScanPost_filePath (P : RunParams) (f : String × List Line) :
    (mkScanPost P f).filePath = f.1 := rfl

theorem mkScanPost_raw (P : RunParams) (f : String × List Line) :
    (mkScanPost P f).raw = f.2 := rfl

/-- C2: with no local changes and no remote changes between the runs, a
second reconciliation run right after a first one computes an empty
plan, an empty deletion diff and an empty remote (orphan) diff.  In
particular after a create the first run leaves on disk the rewritten
content carrying the new identity, stores its hash (computed over that
rewritten content) in the state entry, and the rewritten content parses
back to the inserted identity — which is why the second run skips the
document. -/
theorem c2_reconcile_idempotent (P : RunParams) (w : World)
    (hnd : (w.files.map Prod.fst).Nodup) :
    (runPublish P false (runPublish P false w).world).plan = [] ∧
    (runPublish P false (runPublish P false w).world).deleted = [] ∧
    (runPublish P false (runPublish P false w).world).unmatched = [] ∧
    (∀ e ∈ (runPublish P false w).plan, e.2 = RunAction.create →
      lookupA (runPublish P false w).world.files e.1.filePath =
        some (updateFrontmatterWithAtUri e.1.raw (P.newUri e.1.filePath)) ∧
      lookupA (runPublish P false w).world.state e.1.filePath =
        some { contentHash :=
                 P.hash (updateFrontmatterWithAtUri e.1.raw (P.newUri e.1.filePath)),
               atUri := some (P.newUri e.1.filePath), lastPublished := "",
               slug := e.1.slug } ∧
      parseAtUriC (updateFrontmatterWithAtUri e.1.raw (P.newUri e.1.filePath)) =
        some (P.newUri e.1.filePath)) := by
  -- Notation for the first run.
  set posts1 := scanPosts P w.files with hposts1
  set plan1 := classifyScan P false w.state posts1 with hplan1
  set del1 := deletedEntriesOf w.files posts1 w.state with hdel1
  set unm1 := unmatchedOf P posts1 del1 w.remote with hunm1
  set w1 := plan1.foldl (applyPlanEntry P) w with hw1
  set state2 := del1.foldl (fun st e => st.filter (fun en => en.1 != e.1)) w1.state
    with hstate2
  set remote2 := del1.foldl (fun r e => r.filter (fun d => d.uri != e.2)) w1.remote
    with hremote2
  set remote3 := remote2.filter (fun d => !(unm1.any (fun m => m.uri == d.uri)))
    with hremote3
  have hrfiles : (runPublish P false w).world.files = w1.files := rfl
  have hrstate : (runPublish P false w).world.state = state2 := rfl
  have hrremote : (runPublish P false w).world.remote = remote3 := rfl
  have hrplan : (runPublish P false w).plan = plan1 := rfl
  -- Key bookkeeping for the first run.
  have hposts1keys : posts1.map (fun p => p.filePath) =
      (w.files.map Prod.fst).filter (fun k => !P.ignored k) := by
    rw [hposts1, scanPosts_map_filePath,
      map_fst_filter_pred (fun k => !P.ignored k) w.files]
  have hposts1nodup : (posts1.map (fun p => p.filePath)).Nodup := by
    rw [hposts1keys]
    exact hnd.filter _
  have hplan1nodup : (plan1.map planKey).Nodup :=
    (classifyScan_keys_sublist P false w.state posts1).nodup hposts1nodup
  have hplanHasKey : ∀ e ∈ plan1, hasKeyA w.files (planKey e) = true := by
    intro e he
    obtain ⟨hp, _, _⟩ := mem_classifyScan P false w.state posts1 e he
    obtain ⟨f, hf, hig, hpe⟩ := mem_scanPosts_elim P w.files e.1 hp
    rw [hasKeyA, List.any_eq_true]
    refine ⟨f, hf, ?_⟩
    show (f.1 == planKey e) = true
    rw [planKey, hpe, mkScanPost_filePath]
    simp
  have hfileskeys : w1.files.map Prod.fst = w.files.map Prod.fst :=
    foldl_files_keys P plan1 w hplanHasKey
  have hw1nodup : (w1.files.map Prod.fst).Nodup := by
    rw [hfileskeys]; exact hnd
  -- The second scan sees the same paths and slugs.
  set posts2 := scanPosts P w1.files with hposts2
  have hposts2keys : posts2.map (fun p => p.filePath) =
      posts1.map (fun p => p.filePath) := by
    rw [hposts2, hposts1, scanPosts_map_filePath, scanPosts_map_filePath,
      map_fst_filter_pred (fun k => !P.ignored k) w1.files,
      map_fst_filter_pred (fun k => !P.ignored k) w.files, hfileskeys]
  have hposts2slugs : posts2.map (fun p => p.slug) = posts1.map (fun p => p.slug) := by
    rw [hposts2, hposts1, scanPosts_map_slug, scanPosts_map_slug,
      map_fst_filter_pred (fun k => !P.ignored k) w1.files,
      map_fst_filter_pred (fun k => !P.ignored k) w.files, hfileskeys]
  have hscanned_eq : ∀ k, posts2.any (fun p => p.filePath == k) =
      posts1.any (fun p => p.filePath == k) := by
    intro k
    exact any_eq_of_map_eq (fun p => p.filePath) (fun p => p.filePath)
      posts2 posts1 hposts2keys (fun x => x == k)
  have hfilesany_eq : ∀ k, w1.files.any (fun f => f.1 == k) =
      w.files.any (fun f => f.1 == k) := by
    intro k
    exact any_eq_of_map_eq Prod.fst Prod.fst w1.files w.files hfileskeys
      (fun x => x == k)
  -- Scanned keys are never in the deletion diff.
  have hscanned_not_del : ∀ k, posts1.any (fun p => p.filePath == k) = true →
      ∀ d ∈ del1, d.1 ≠ k := by
    intro k hk d hd hc
    obtain ⟨en, _, hdeq, h1, _, _⟩ := mem_deletedEntriesOf w.files posts1 w.state d hd
    have hek : en.1 = k := by rw [hdeq] at hc; exact hc
    rw [hek, hk] at h1
    exact Bool.noConfusion h1
  have hstate2_lookup : ∀ k, posts1.any (fun p => p.filePath == k) = true →
      lookupA state2 k = lookupA w1.state k := by
    intro k hk
    exact lookupA_foldl_filter_keys del1 w1.state k (hscanned_not_del k hk)
  -- Scanned membership gives a true any.
  have hany_of_mem : ∀ (ps : List ScanPost) (p : ScanPost), p ∈ ps →
      ps.any (fun q => q.filePath == p.filePath) = true := by
    intro ps p hp
    rw [List.any_eq_true]
    exact ⟨p, hp, by simp⟩
  -- G1: the second plan is empty.
  have hG1 : classifyScan P false state2 posts2 = [] := by
    rw [classifyScan_eq_filterMap, List.filterMap_eq_nil_iff]
    intro p hp
    obtain ⟨f, hf, hig, hpf⟩ := mem_scanPosts_elim P w1.files p hp
    have hlf : lookupA w1.files f.1 = some f.2 := by
      have : ((f.1, f.2) : String × List Line) = f := rfl
      exact lookupA_of_mem_nodup w1.files f.1 f.2 hw1nodup (this ▸ hf)
    have hk1 : posts1.any (fun q => q.filePath == f.1) = true := by
      rw [← hscanned_eq]
      rw [List.any_eq_true]
      exact ⟨p, hp, by rw [hpf, mkScanPost_filePath]; simp⟩
    have hpraw : p.raw = f.2 := by rw [hpf]; rfl
    have hpfile : p.filePath = f.1 := by rw [hpf]; rfl
    have hpdraft : p.draft = parseDraftC f.2 := by rw [hpf]; rfl
    cases hfind : plan1.find? (fun e => planKey e == f.1) with
    | some e =>
      have hmem := List.mem_of_find?_eq_some hfind
      obtain ⟨hpmem, hdr1, hcfn⟩ := mem_classifyScan P false w.state posts1 e hmem
      have hkey : planKey e = f.1 := by simpa using List.find?_some hfind
      have hfl := foldl_files_lookup_found P plan1 w f.1 e hplan1nodup hfind
      have hsl := foldl_state_lookup_found P plan1 w f.1 e hplan1nodup hfind
      obtain ⟨f0, hf0, hig0, hpe0⟩ := mem_scanPosts_elim P w.files e.1 hpmem
      have hf01 : f0.1 = f.1 := by
        rw [← hkey, planKey, hpe0, mkScanPost_filePath]
      have heraw : e.1.raw = f0.2 := by rw [hpe0]; rfl
      have hedraft : e.1.draft = parseDraftC f0.2 := by rw [hpe0]; rfl
      have hst : lookupA state2 f.1 = some (entryFor P e) := by
        rw [hstate2_lookup f.1 hk1]
        exact hsl
      cases ha : e.2 with
      | create =>
        have hlines : linesFor P e =
            some (updateFrontmatterWithAtUri e.1.raw (P.newUri e.1.filePath)) := by
          rw [linesFor, ha]
        have hf2 : f.2 = updateFrontmatterWithAtUri e.1.raw (P.newUri e.1.filePath) := by
          rw [hlines] at hfl
          simp only at hfl
          rw [hlf] at hfl
          injection hfl
        have hdraft2 : p.draft = false := by
          rw [hpdraft, hf2, parseDraftC_update, heraw, ← hedraft]
          exact hdr1
        apply classifyFn_skip_none P state2 p (entryFor P e) hdraft2
        · rw [hpfile]
          exact hst
        · show (entryFor P e).contentHash = P.hash p.raw
          rw [entryFor, ha, hpraw, hf2]
      | update uri =>
        have hlines : linesFor P e = none := by rw [linesFor, ha]
        have hf2 : f.2 = e.1.raw := by
          rw [hlines] at hfl
          simp only at hfl
          have hlw0 : lookupA w.files f.1 = some f0.2 := by
            rw [← hf01]
            have : ((f0.1, f0.2) : String × List Line) = f0 := rfl
            exact lookupA_of_mem_nodup w.files f0.1 f0.2 hnd (this ▸ hf0)
          rw [hlf, hlw0] at hfl
          injection hfl with hfl2
          rw [hfl2, heraw]
        have hdraft2 : p.draft = false := by
          rw [hpdraft, hf2, heraw, ← hedraft]
          exact hdr1
        apply classifyFn_skip_none P state2 p (entryFor P e) hdraft2
        · rw [hpfile]
          exact hst
        · show (entryFor P e).contentHash = P.hash p.raw
          rw [entryFor, ha, hpraw, hf2]
    | none =>
      have hfl := foldl_files_lookup_notfound P plan1 w f.1 hfind
      have hlw : lookupA w.files f.1 = some f.2 := by rw [← hfl]; exact hlf
      have hmem1 : mkScanPost P f ∈ posts1 := by
        have hfm := lookupA_mem w.files f.1 f.2 hlw
        have heta : ((f.1, f.2) : String × List Line) = f := rfl
        rw [heta] at hfm
        exact mem_scanPosts_intro P w.files f hfm hig
      have hcls : classifyFn P false w.state (mkScanPost P f) = none := by
        cases hc : classifyFn P false w.state (mkScanPost P f) with
        | none => rfl
        | some e =>
          have hmemplan : e ∈ plan1 := by
            rw [hplan1, classifyScan_eq_filterMap, List.mem_filterMap]
            exact ⟨mkScanPost P f, hmem1, hc⟩
          have hkeye : planKey e = f.1 := by
            have := (classifyFn_some P false w.state (mkScanPost P f) e hc).1
            rw [planKey, this, mkScanPost_filePath]
          rw [List.find?_eq_none] at hfind
          have := hfind e hmemplan
          rw [hkeye] at this
          simp at this
      by_cases hdrp : p.draft = true
      · exact classifyFn_draft_none P false state2 p hdrp
      · rcases classifyFn_none_skip P w.state (mkScanPost P f) hcls with hdr | ⟨ps, hl, hh⟩
        · exact absurd (by rw [hpdraft]; exact hdr) hdrp
        · apply classifyFn_skip_none P state2 p ps (by simpa using hdrp)
          · rw [hpfile, hstate2_lookup f.1 hk1,
              foldl_state_lookup_notfound P plan1 w f.1 hfind]
            rw [mkScanPost_filePath] at hl
            exact hl
          · rw [mkScanPost_raw] at hh
            rw [hpraw]
            exact hh
  -- G2: the second deletion diff is empty.
  have hG2 : deletedEntriesOf w1.files posts2 state2 = [] := by
    rw [deletedEntriesOf, List.filterMap_eq_nil_iff]
    intro en hen2
    obtain ⟨hen1, hkeep⟩ :=
      mem_foldl_filter (fun d en => en.1 != d.1) del1 w1.state en hen2
    rcases foldl_state_members P plan1 w en hen1 with ⟨pe, hpe, heq⟩ | henw
    · have hk1 : posts1.any (fun p => p.filePath == en.1) = true := by
        have hp1 := (mem_classifyScan P false w.state posts1 pe hpe).1
        rw [heq]
        show posts1.any (fun p => p.filePath == planKey pe) = true
        rw [List.any_eq_true]
        exact ⟨pe.1, hp1, by rw [planKey]; simp⟩
      rw [if_pos (by rw [hscanned_eq]; exact hk1)]
    · by_cases hsc : posts2.any (fun p => p.filePath == en.1) = true
      · rw [if_pos hsc]
      · have hscf : posts2.any (fun p => p.filePath == en.1) = false := by
          revert hsc
          cases posts2.any (fun p => p.filePath == en.1) <;> simp
        by_cases hset : strSet en.2.atUri = true
        · by_cases hex : w1.files.any (fun ff => ff.1 == en.1) = true
          · rw [if_neg (by rw [hscf]; simp), if_neg (by rw [hset]; simp), if_pos hex]
          · have hexf : w1.files.any (fun ff => ff.1 == en.1) = false := by
              revert hex
              cases w1.files.any (fun ff => ff.1 == en.1) <;> simp
            have hex1 : w.files.any (fun ff => ff.1 == en.1) = false := by
              rw [← hfilesany_eq]
              exact hexf
            have hsc1 : posts1.any (fun p => p.filePath == en.1) = false := by
              rw [← hscanned_eq]
              exact hscf
            have hdmem : (en.1, en.2.atUri.getD "") ∈ del1 :=
              deletedEntriesOf_intro w.files posts1 w.state en henw hsc1 hset hex1
            have := hkeep _ hdmem
            simp at this
        · have hsetf : strSet en.2.atUri = false := by
            revert hset
            cases strSet en.2.atUri <;> simp
          rw [if_neg (by rw [hscf]; simp), if_pos (by rw [hsetf]; simp)]
  -- G3: the second remote diff is empty.
  have hmapslug2 : posts2.map (fun p => P.pathPre ++ "/" ++ p.slug) =
      posts1.map (fun p => P.pathPre ++ "/" ++ p.slug) := by
    have hcomp : (fun p : ScanPost => P.pathPre ++ "/" ++ p.slug) =
        ((fun s => P.pathPre ++ "/" ++ s) ∘ (fun p : ScanPost => p.slug)) := rfl
    rw [hcomp, ← List.map_map, ← List.map_map, hposts2slugs]
  have hanyslug_eq : ∀ t, posts2.any (fun p => P.pathPre ++ "/" ++ p.slug == t) =
      posts1.any (fun p => P.pathPre ++ "/" ++ p.slug == t) := by
    intro t
    exact any_eq_of_map_eq (fun p => P.pathPre ++ "/" ++ p.slug)
      (fun p => P.pathPre ++ "/" ++ p.slug) posts2 posts1 hmapslug2 (fun x => x == t)
  have hG3 : ∀ (dl : List (String × String)),
      unmatchedOf P posts2 dl remote3 = [] := by
    intro dl
    rw [unmatchedOf, List.filter_eq_nil_iff]
    intro d hd3
    rw [hremote3, List.mem_filter] at hd3
    obtain ⟨hd2, hnotunm⟩ := hd3
    obtain ⟨hd1, hkeepdel⟩ :=
      mem_foldl_filter (fun e d => d.uri != e.2) del1 w1.remote d hd2
    suffices hany : posts2.any (fun p => P.pathPre ++ "/" ++ p.slug == d.path) = true by
      simp [hany]
    rcases foldl_remote_members P plan1 w d hd1 with ⟨pe, hpe, hdoc⟩ | hdw
    · have hp1 := (mem_classifyScan P false w.state posts1 pe hpe).1
      rw [hanyslug_eq, List.any_eq_true]
      refine ⟨pe.1, hp1, ?_⟩
      rw [hdoc]
      show (P.pathPre ++ "/" ++ pe.1.slug == (docFor P pe).path) = true
      rw [docFor]
      simp
    · by_cases hany1 : posts1.any (fun p => P.pathPre ++ "/" ++ p.slug == d.path) = true
      · rw [hanyslug_eq]
        exact hany1
      · have hany1f : posts1.any (fun p => P.pathPre ++ "/" ++ p.slug == d.path) = false := by
          revert hany1
          cases posts1.any (fun p => P.pathPre ++ "/" ++ p.slug == d.path) <;> simp
        have hdelany : del1.any (fun e => e.2 == d.uri) = false := by
          rw [List.any_eq_false]
          intro x hx
          have h5 := hkeepdel x hx
          simp only [bne_iff_ne, ne_eq] at h5
          simp only [beq_iff_eq]
          exact fun hc => h5 hc.symm
        have hunm : d ∈ unm1 :=
          unmatchedOf_intro P posts1 del1 w.remote d hdw hany1f hdelany
        have : unm1.any (fun m => m.uri == d.uri) = true := by
          rw [List.any_eq_true]
          exact ⟨d, hunm, by simp⟩
        rw [this] at hnotunm
        exact Bool.noConfusion hnotunm
  refine ⟨hG1, hG2, hG3 _, ?_⟩
  -- G4: what a create leaves behind.
  intro e he hcreate
  rw [hrplan] at he
  have hfind := find?_key_of_mem_nodup planKey plan1 e hplan1nodup he
  have hp1 := (mem_classifyScan P false w.state posts1 e he).1
  have hk1 : posts1.any (fun p => p.filePath == planKey e) = true := by
    rw [List.any_eq_true]
    exact ⟨e.1, hp1, by rw [planKey]; simp⟩
  have hlines : linesFor P e =
      some (updateFrontmatterWithAtUri e.1.raw (P.newUri e.1.filePath)) := by
    rw [linesFor, hcreate]
  have hentry : entryFor P e =
      { contentHash :=
          P.hash (updateFrontmatterWithAtUri e.1.raw (P.newUri e.1.filePath)),
        atUri := some (P.newUri e.1.filePath), lastPublished := "",
        slug := e.1.slug } := by
    rw [entryFor, hcreate]
  refine ⟨?_, ?_, parseAtUriC_update e.1.raw (P.newUri e.1.filePath)⟩
  · rw [hrfiles]
    have hfl := foldl_files_lookup_found P plan1 w (planKey e) e hplan1nodup hfind
    rw [hlines] at hfl
    simp only at hfl
    exact hfl
  · rw [hrstate]
    have hsl := foldl_state_lookup_found P plan1 w (planKey e) e hplan1nodup hfind
    have h6 : lookupA state2 (planKey e) = some (entryFor P e) := by
      rw [hstate2_lookup (planKey e) hk1]
      exact hsl
    rw [hentry] at h6
    exact h6

/-- Concrete run parameters for exercising the reconciliation model. -/
def c2Params : RunParams :=
  { hash := fun ls => String.mk (ls.foldl (fun acc l => acc ++ l) []),
    slugOf := fun p => p,
    newUri := fun p => "at://did:plc:w/space.remanso.note/" ++ p,
    titleOf := fun p => p,
    ignored := fun _ => false,
    pathPre := "blog" }

/-- Concrete content directory, state store and remote listing. -/
def c2World : World :=
  { files := [("a.md", ["hello".toList])], state := [], remote := [] }

theorem c2_reconcile_idempotent_witness :
    (c2World.files.map Prod.fst).Nodup ∧
    ((runPublish c2Params false (runPublish c2Params false c2World).world).plan = [] ∧
     (runPublish c2Params false (runPublish c2Params false c2World).world).deleted = [] ∧
     (runPublish c2Params false (runPublish c2Params false c2World).world).unmatched = [] ∧
     (∀ e ∈ (runPublish c2Params false c2World).plan, e.2 = RunAction.create →
       lookupA (runPublish c2Params false c2World).world.files e.1.filePath =
         some (updateFrontmatterWithAtUri e.1.raw (c2Params.newUri e.1.filePath)) ∧
       lookupA (runPublish c2Params false c2World).world.state e.1.filePath =
         some { contentHash := c2Params.hash
                  (updateFrontmatterWithAtUri e.1.raw (c2Params.newUri e.1.filePath)),
                atUri := some (c2Params.newUri e.1.filePath), lastPublished := "",
                slug := e.1.slug } ∧
       parseAtUriC (updateFrontmatterWithAtUri e.1.raw (c2Params.newUri e.1.filePath)) =
         some (c2Params.newUri e.1.filePath))) :=
  ⟨by decide, c2_reconcile_idempotent c2Params c2World (by decide)⟩

end Sequoia
